import Mathlib

/-!
# E-book reader: the EPUB ingestion and chapter-extraction service

A shallow embedding of `backend/services/epubService.js` (class `EPubService`):
`parseEpub`, `getChapterContent` and `extractTitleFromFilename`, together with the
JavaScript string, regular-expression and `path` primitives they call.

Conventions of the embedding

* A JavaScript string is a `List Char` (`Str`), the list of its code points; lengths
  and indices are those of its code units for texts of the Basic Multilingual Plane.
* A number that is an integer is an `Int` or a `Nat`; the arithmetic and the decimal
  rendering of JavaScript are those of the integers on the safe range (below `2^53` in
  absolute value), the range of chapter indices and chapter counts.
* An archive entry carries its name and the result of `getData().toString('utf8')`;
  `none` stands for a read that throws.
* `new AdmZip(filePath).getEntries()` is the argument `zip : Option (List Entry)`;
  `none` stands for a container that cannot be opened.
* `try { ... } catch` blocks are computations in `Option`, the handler being the
  `none` branch.
* `String.prototype.localeCompare` is platform collation and is a parameter `cmp`;
  `localeCompareModel` follows it on the names of the sample containers.
-/

namespace EPubService

/-- A JavaScript string, as the list of its characters. -/
abbrev Str := List Char

/-! ## String primitives -/

/-- The method `String.prototype.endsWith`. -/
def endsWith (s suffix : Str) : Bool :=
  suffix.isSuffixOf s

/-- The method `String.prototype.startsWith`, used by `includes`. -/
def startsWith : Str → Str → Bool
  | _, [] => true
  | [], _ :: _ => false
  | c :: cs, d :: ds => c == d && startsWith cs ds

/-- The method `String.prototype.includes`. -/
def includes : Str → Str → Bool
  | [], sub => startsWith [] sub
  | c :: cs, sub => startsWith (c :: cs) sub || includes cs sub

/-- White space and line terminators removed by `String.prototype.trim`. -/
def isTrimSpace (c : Char) : Bool :=
  let n := c.toNat
  n == 9 || n == 10 || n == 11 || n == 12 || n == 13 || n == 32 || n == 160 ||
  n == 5760 || (8192 ≤ n && n ≤ 8202) || n == 8232 || n == 8233 || n == 8239 ||
  n == 8287 || n == 12288 || n == 65279

/-- The method `String.prototype.trim`. -/
def trim (s : Str) : Str :=
  ((s.dropWhile isTrimSpace).reverse.dropWhile isTrimSpace).reverse

/-- The integers that a number of the code holds exactly, `Number.isSafeInteger`: those
strictly between `-2^53` and `2^53`.  For an index among them `chapterIndex + 1` and its
rendering are those of the integers; beyond them the code computes in doubles. -/
@[reducible] def IsSafeInteger (n : Int) : Prop :=
  -9007199254740992 < n ∧ n < 9007199254740992

/-- Decimal rendering of a number inside a template literal, for an integer of the safe
range (`IsSafeInteger`, and `2^53` itself).  Beyond that range the code adds and renders
in doubles, which this definition does not follow: a statement about a title either
bounds the index by the number of entries of a listing or carries `IsSafeInteger`. -/
def numToStr (i : Int) : Str :=
  if i < 0 then '-' :: Nat.toDigits 10 i.natAbs else Nat.toDigits 10 i.natAbs

/-! ## Regular expressions

The patterns of the service are sequences of literals and of single-character
classes under `*`, `*?` or `+`, with at most one capture group around a `+`.
The matcher is a backtracking matcher with the priorities of JavaScript:
a greedy quantifier tries the longest repetition first, a lazy one the shortest. -/

/-- One element of a pattern. -/
inductive Atom where
  /-- Literal text. -/
  | lit (s : Str)
  /-- Greedy `[class]*`. -/
  | star (p : Char → Bool)
  /-- Lazy `[class]*?`. -/
  | lazyStar (p : Char → Bool)
  /-- Greedy `[class]+`. -/
  | plus (p : Char → Bool)
  /-- Capture group around a greedy `[class]+`, that is `([class]+)`. -/
  | capPlus (p : Char → Bool)

/-- A pattern: its elements and the `i` flag. -/
structure Regex where
  atoms : List Atom
  ignoreCase : Bool

/-- Character comparison, under the `i` flag when `ci` is set.  Without the `u` flag
a pattern letter of the ASCII range matches only its two ASCII case forms. -/
def chEq (ci : Bool) (a b : Char) : Bool :=
  if ci then a.toLower == b.toLower else a == b

/-- Match a literal at the start of the input; returns the consumed text and the rest. -/
def matchLit (ci : Bool) : Str → Str → Option (Str × Str)
  | [], s => some ([], s)
  | _ :: _, [] => none
  | l :: ls, c :: cs =>
    if chEq ci l c then
      match matchLit ci ls cs with
      | some (m, r) => some (c :: m, r)
      | none => none
    else none

/-- Greedy repetition of a class followed by the continuation `k`.  A result is the
pair of the text consumed and the text of capture group 1. -/
def greedy (p : Char → Bool) (k : Str → Option (Str × Str)) : Str → Option (Str × Str)
  | [] => k []
  | c :: cs =>
    if p c then
      match greedy p k cs with
      | some (m, g) => some (c :: m, g)
      | none => k (c :: cs)
    else k (c :: cs)

/-- Lazy repetition of a class followed by the continuation `k`. -/
def lazyRep (p : Char → Bool) (k : Str → Option (Str × Str)) : Str → Option (Str × Str)
  | [] => k []
  | c :: cs =>
    match k (c :: cs) with
    | some r => some r
    | none =>
      if p c then
        match lazyRep p k cs with
        | some (m, g) => some (c :: m, g)
        | none => none
      else none

/-- Greedy repetition inside the capture group: the group is the repeated text. -/
def greedyCap (p : Char → Bool) (k : Str → Option (Str × Str)) : Str → Option (Str × Str)
  | [] =>
    match k [] with
    | some (m, _) => some (m, [])
    | none => none
  | c :: cs =>
    if p c then
      match greedyCap p k cs with
      | some (m, g) => some (c :: m, c :: g)
      | none =>
        match k (c :: cs) with
        | some (m, _) => some (m, [])
        | none => none
    else
      match k (c :: cs) with
      | some (m, _) => some (m, [])
      | none => none

/-- Match the elements of a pattern at the start of the input. -/
def matchAtoms (ci : Bool) : List Atom → Str → Option (Str × Str)
  | [], _ => some ([], [])
  | Atom.lit l :: rest, s =>
    match matchLit ci l s with
    | some (m, r) =>
      match matchAtoms ci rest r with
      | some (m2, g) => some (m ++ m2, g)
      | none => none
    | none => none
  | Atom.star p :: rest, s => greedy p (matchAtoms ci rest) s
  | Atom.lazyStar p :: rest, s => lazyRep p (matchAtoms ci rest) s
  | Atom.plus p :: rest, s =>
    match s with
    | [] => none
    | c :: cs =>
      if p c then
        match greedy p (matchAtoms ci rest) cs with
        | some (m, g) => some (c :: m, g)
        | none => none
      else none
  | Atom.capPlus p :: rest, s =>
    match s with
    | [] => none
    | c :: cs =>
      if p c then
        match greedyCap p (matchAtoms ci rest) cs with
        | some (m, g) => some (c :: m, c :: g)
        | none => none
      else none

/-- Match a pattern at the start of the input: matched text and capture group 1. -/
def matchAt (re : Regex) (s : Str) : Option (Str × Str) :=
  matchAtoms re.ignoreCase re.atoms s

/-- The call `str.match(re)` for a pattern without the `g` flag: the leftmost match, as the
pair of the matched text and capture group 1; `none` is `null`. -/
def matchFirst (re : Regex) : Str → Option (Str × Str)
  | [] => matchAt re []
  | c :: cs =>
    match matchAt re (c :: cs) with
    | some r => some r
    | none => matchFirst re cs

/-- Successive matches of a pattern with the `g` flag.  The counter is the number of
characters still covered by the previous match; after a match of length `n` the scan
resumes `max n 1` characters further on. -/
def matchAllAux (re : Regex) : Nat → Str → List Str
  | 0, [] =>
    match matchAt re [] with
    | some (m, _) => [m]
    | none => []
  | _ + 1, [] => []
  | k + 1, _ :: cs => matchAllAux re k cs
  | 0, c :: cs =>
    match matchAt re (c :: cs) with
    | some (m, _) => m :: matchAllAux re (m.length - 1) cs
    | none => matchAllAux re 0 cs

/-- The call `str.match(re)` for a pattern with the `g` flag: all matched texts, or `null`
(`none`) when there is no match. -/
def matchAll (re : Regex) (s : Str) : Option (List Str) :=
  match matchAllAux re 0 s with
  | [] => none
  | m :: ms => some (m :: ms)

/-- Worker of `replaceAll`, with the same counter as `matchAllAux`. -/
def replaceAllAux (re : Regex) (rep : Str) : Nat → Str → Str
  | 0, [] =>
    match matchAt re [] with
    | some _ => rep
    | none => []
  | _ + 1, [] => []
  | k + 1, _ :: cs => replaceAllAux re rep k cs
  | 0, c :: cs =>
    match matchAt re (c :: cs) with
    | some ([], _) => rep ++ c :: replaceAllAux re rep 0 cs
    | some (_ :: m, _) => rep ++ replaceAllAux re rep m.length cs
    | none => c :: replaceAllAux re rep 0 cs

/-- The call `str.replace(re, rep)` for a pattern with the `g` flag and a replacement text
without `$` patterns. -/
def replaceAll (re : Regex) (rep : Str) (s : Str) : Str :=
  replaceAllAux re rep 0 s

/-- The class `[^>]`. -/
def notGt (c : Char) : Bool := c != '>'

/-- The class `[^<]`. -/
def notLt (c : Char) : Bool := c != '<'

/-- The class `.` without the `s` flag: anything but a line terminator. -/
def dot (c : Char) : Bool :=
  !(c == '\n' || c == '\r' || c.toNat == 8232 || c.toNat == 8233)

/-- The class `.` under the `s` flag. -/
def dotAll (_ : Char) : Bool := true

/-- The class `\d`. -/
def isDigit (c : Char) : Bool := '0' ≤ c && c ≤ '9'

/-- The class `\w`. -/
def isWord (c : Char) : Bool :=
  ('a' ≤ c && c ≤ 'z') || ('A' ≤ c && c ≤ 'Z') || ('0' ≤ c && c ≤ '9') || c == '_'

/-! ## Node `path` -/

/-- Local variables of the loops of `path.posix.basename`; `-1` is the unset index. -/
structure BaseState where
  start : Int
  stop : Int
  matchedSlash : Bool
  firstNonSlashEnd : Int
  extIdx : Int

/-- The loop of `path.posix.basename(path, suffix)` for a usable suffix:
`for (i = path.length - 1; i >= 0; --i)`, entered with `i + 1` as counter. -/
def basenameExtLoop (path suffix : Str) : Nat → BaseState → BaseState
  | 0, st => st
  | i + 1, st =>
    let code := path.getD i ' '
    if code == '/' then
      if !st.matchedSlash then { st with start := i + 1 }
      else basenameExtLoop path suffix i st
    else
      let st1 :=
        if st.firstNonSlashEnd == -1 then
          { st with matchedSlash := false, firstNonSlashEnd := i + 1 }
        else st
      let st2 :=
        if 0 ≤ st1.extIdx then
          if code == suffix.getD st1.extIdx.toNat ' ' then
            if st1.extIdx - 1 == -1 then { st1 with extIdx := st1.extIdx - 1, stop := i }
            else { st1 with extIdx := st1.extIdx - 1 }
          else { st1 with extIdx := -1, stop := st1.firstNonSlashEnd }
        else st1
      basenameExtLoop path suffix i st2

/-- The loop of `path.posix.basename(path)` without a usable suffix. -/
def basenamePlainLoop (path : Str) : Nat → BaseState → BaseState
  | 0, st => st
  | i + 1, st =>
    if path.getD i ' ' == '/' then
      if !st.matchedSlash then { st with start := i + 1 }
      else basenamePlainLoop path i st
    else if st.stop == -1 then
      basenamePlainLoop path i { st with matchedSlash := false, stop := i + 1 }
    else basenamePlainLoop path i st

/-- The method `String.prototype.slice(start, stop)` for indices that are not
negative. -/
def slice (s : Str) (start stop : Int) : Str :=
  (s.take stop.toNat).drop start.toNat

/-- The function `path.posix.basename(path, suffix)` of Node; the empty suffix stands
for the call with one argument. -/
def basename (path suffix : Str) : Str :=
  if 0 < suffix.length ∧ suffix.length ≤ path.length then
    if suffix = path then []
    else
      let st := basenameExtLoop path suffix path.length
        { start := 0, stop := -1, matchedSlash := true, firstNonSlashEnd := -1,
          extIdx := (suffix.length : Int) - 1 }
      let stop :=
        if st.start == st.stop then st.firstNonSlashEnd
        else if st.stop == -1 then (path.length : Int)
        else st.stop
      slice path st.start stop
  else
    let st := basenamePlainLoop path path.length
      { start := 0, stop := -1, matchedSlash := true, firstNonSlashEnd := -1, extIdx := -1 }
    if st.stop == -1 then [] else slice path st.start st.stop

/-! ## `extractTitleFromFilename` -/

/-- The pattern `^\d+-\d+-` of `extractTitleFromFilename`: digits, a hyphen, digits, a
hyphen, at the start of the text only. -/
def prefixRe : Regex :=
  { atoms := [Atom.plus isDigit, Atom.lit ['-'], Atom.plus isDigit, Atom.lit ['-']],
    ignoreCase := false }

/-- Removal of the leading match of `prefixRe`, `filename.replace(prefixRe, '')`. -/
def stripIdPrefix (filename : Str) : Str :=
  match matchAt prefixRe filename with
  | some (m, _) => filename.drop m.length
  | none => filename

/-- The replacement of every `-` and `_` by a space, `.replace([-_] with g, ' ')`. -/
def replaceSeparators (s : Str) : Str :=
  s.map (fun c => if c == '-' || c == '_' then ' ' else c)

/-- The replacement `.replace(\b\w with g, char => char.toUpperCase())`: a word
character is put in upper case when the character before it is not a word character;
`prev` tells whether it is. -/
def capitalizeWords : Bool → Str → Str
  | _, [] => []
  | prev, c :: cs =>
    (if isWord c && !prev then c.toUpper else c) :: capitalizeWords (isWord c) cs

/-- The method `EPubService.extractTitleFromFilename`. -/
def extractTitleFromFilename (filePath : Str) : Str :=
  let filename := basename filePath ".epub".toList
  let cleanFilename := stripIdPrefix filename
  let title := trim (capitalizeWords false (replaceSeparators cleanFilename))
  if title = [] then "Untitled Book".toList else title

/-! ## Data model -/

/-- An entry of the archive: its name and its data decoded as UTF-8; `none` is a
read (`getData`) that throws. -/
structure Entry where
  entryName : Str
  data : Option Str
  deriving DecidableEq

/-- A row of the table of contents. -/
structure TocRow where
  title : Str
  href : Str
  chapter : Nat
  deriving DecidableEq

/-- The `metadata` object built by `parseEpub`; `publishDate` is a time stamp. -/
structure Metadata where
  title : Str
  author : Str
  description : Str
  language : Str
  publisher : Str
  publishDate : Nat
  coverImage : Option Str
  tableOfContents : List TocRow
  extractedText : Str
  deriving DecidableEq

/-- The object returned by `parseEpub` (its field `epub` is always `null`). -/
structure ParseResult where
  metadata : Metadata
  totalChapters : Nat
  deriving DecidableEq

/-- The object returned by `getChapterContent`. -/
structure Chapter where
  title : Str
  content : Str
  chapterIndex : Int
  deriving DecidableEq

/-! ## `parseEpub` -/

/-- The descriptor patterns `<NAME[^>]*>([^<]+)</NAME>` with the `i` flag, for `NAME`
one of `dc:title`, `dc:creator`, `dc:description`, `dc:language`. -/
def tagRe (name : Str) : Regex :=
  { atoms := [Atom.lit ('<' :: name), Atom.star notGt, Atom.lit ['>'], Atom.capPlus notLt,
      Atom.lit ('<' :: '/' :: (name ++ ['>']))],
    ignoreCase := true }

/-- The predicate of `entries.find` that selects the descriptor entry. -/
def isOpf (entry : Entry) : Bool :=
  endsWith entry.entryName ".opf".toList || includes entry.entryName "content.opf".toList

/-- The predicate of the filter that selects the navigation entries. -/
def isNav (entry : Entry) : Bool :=
  includes entry.entryName "nav".toList || includes entry.entryName "toc".toList ||
    endsWith entry.entryName ".ncx".toList

/-- The predicate of the filter that selects the markup entries (`htmlEntries`). -/
def isHtml (entry : Entry) : Bool :=
  endsWith entry.entryName ".html".toList || endsWith entry.entryName ".xhtml".toList

/-- The predicate of the filter that selects the cover candidates (`imageEntries`). -/
def isCoverImage (entry : Entry) : Bool :=
  (includes entry.entryName "cover".toList || includes entry.entryName "Cover".toList) &&
    (endsWith entry.entryName ".jpg".toList || endsWith entry.entryName ".jpeg".toList ||
      endsWith entry.entryName ".png".toList)

/-- The initial `metadata` of `parseEpub`. -/
def initialMetadata (filePath : Str) (now : Nat) : Metadata :=
  { title := extractTitleFromFilename filePath
    author := "Unknown Author".toList
    description := "EPUB book uploaded successfully.".toList
    language := "en".toList
    publisher := []
    publishDate := now
    coverImage := none
    tableOfContents := []
    extractedText := "Start reading to view content.".toList }

/-- The four extractions made on the text of the descriptor. -/
def applyDescriptor (metadata : Metadata) (opfContent : Str) : Metadata :=
  let m1 :=
    match matchFirst (tagRe "dc:title".toList) opfContent with
    | some titleMatch => { metadata with title := trim titleMatch.2 }
    | none => metadata
  let m2 :=
    match matchFirst (tagRe "dc:creator".toList) opfContent with
    | some authorMatch => { m1 with author := trim authorMatch.2 }
    | none => m1
  let m3 :=
    match matchFirst (tagRe "dc:description".toList) opfContent with
    | some descMatch => { m2 with description := trim descMatch.2 }
    | none => m2
  match matchFirst (tagRe "dc:language".toList) opfContent with
  | some langMatch => { m3 with language := trim langMatch.2 }
  | none => m3

/-- The navigation pattern `<navLabel>.*?<text>([^<]+)</text>` with the flags `gi`. -/
def navRe : Regex :=
  { atoms := [Atom.lit "<navLabel>".toList, Atom.lazyStar dot, Atom.lit "<text>".toList,
      Atom.capPlus notLt, Atom.lit "</text>".toList],
    ignoreCase := true }

/-- The pattern `<text>([^<]+)</text>` with the `i` flag, applied to each match. -/
def textRe : Regex :=
  { atoms := [Atom.lit "<text>".toList, Atom.capPlus notLt, Atom.lit "</text>".toList],
    ignoreCase := true }

/-- The text of a synthetic chapter title, `Chapter N`. -/
def chapterTitle (n : Int) : Str :=
  "Chapter ".toList ++ numToStr n

/-- The callback of `tocMatches.map`, with the running `index`. -/
def tocRows : Nat → List Str → List TocRow
  | _, [] => []
  | index, m :: ms =>
    { title :=
        match matchFirst textRe m with
        | some textMatch => textMatch.2
        | none => chapterTitle ((index : Int) + 1)
      href := []
      chapter := index + 1 } :: tocRows (index + 1) ms

/-- The table of contents after the navigation step: the rows read from the first
navigation entry, or the empty table when there is no such entry, when reading it
throws (the error is caught there) or when its text has no match. -/
def navigationRows (entries : List Entry) : List TocRow :=
  match entries.filter isNav with
  | [] => []
  | navEntry :: _ =>
    match navEntry.data with
    | none => []
    | some navContent =>
      match matchAll navRe navContent with
      | some tocMatches => tocRows 0 tocMatches
      | none => []

/-- The synthetic rows built by `Array.from` for `chapterCount` chapters, from index `i`
on: row `i` has the title `Chapter i+1` and the chapter number `i + 1`. -/
def defaultRows : Nat → Nat → List TocRow
  | _, 0 => []
  | i, n + 1 =>
    { title := chapterTitle ((i : Int) + 1), href := [], chapter := i + 1 } ::
      defaultRows (i + 1) n

/-- The default chapters, one per markup entry and at least one. -/
def defaultChapters (entries : List Entry) : List TocRow :=
  defaultRows 0 (max 1 (entries.filter isHtml).length)

/-- The cover step.  `writeOk` tells whether `ensureDirSync` and `writeFileSync`
succeed.  The file name is `path.basename(coverPath)`, where `coverPath` joins the
directory of the container, `covers` and the container name followed by `-cover.jpg`;
its last segment is the last segment of that third part. -/
def coverImage (filePath : Str) (entries : List Entry) (writeOk : Bool) : Option Str :=
  match entries.filter isCoverImage with
  | [] => none
  | coverEntry :: _ =>
    match coverEntry.data with
    | none => none
    | some _ =>
      if writeOk then
        some ("/uploads/covers/".toList ++
          basename (basename filePath ".epub".toList ++ "-cover.jpg".toList) [])
      else none

/-- The body of the `try` block of `parseEpub`; `none` is a thrown error. -/
def parseBody (filePath : Str) (zip : Option (List Entry)) (now : Nat) (writeOk : Bool) :
    Option ParseResult :=
  match zip with
  | none => none
  | some entries =>
    let described : Option Metadata :=
      match entries.find? isOpf with
      | some opfEntry =>
        match opfEntry.data with
        | some opfContent => some (applyDescriptor (initialMetadata filePath now) opfContent)
        | none => none
      | none => some (initialMetadata filePath now)
    match described with
    | none => none
    | some metadata =>
      let rows := navigationRows entries
      let toc := if rows.length = 0 then defaultChapters entries else rows
      let final : Metadata :=
        { metadata with tableOfContents := toc, coverImage := coverImage filePath entries writeOk }
      some { metadata := final, totalChapters := final.tableOfContents.length }

/-- The object returned by the `catch` block of `parseEpub`. -/
def fallbackResult (filePath : Str) (now : Nat) : ParseResult :=
  { metadata :=
      { title := extractTitleFromFilename filePath
        author := "Unknown Author".toList
        description := "EPUB file uploaded. Metadata extraction was limited.".toList
        language := "en".toList
        publisher := []
        publishDate := now
        coverImage := none
        tableOfContents := [{ title := "Chapter 1".toList, href := [], chapter := 1 }]
        extractedText := "Content available when reading.".toList }
    totalChapters := 1 }

/-- The method `EPubService.parseEpub`: `zip` is the outcome of opening the container at
`filePath` and listing it, `now` the clock, `writeOk` the outcome of the cover write. -/
def parseEpub (filePath : Str) (zip : Option (List Entry)) (now : Nat) (writeOk : Bool) :
    ParseResult :=
  match parseBody filePath zip now writeOk with
  | some result => result
  | none => fallbackResult filePath now

/-! ## `getChapterContent` -/

/-- Step 1: the XML prolog, `<\?xml[^>]*\?>` with `gi`, is removed. -/
def stepXml : Regex × Str :=
  ({ atoms := [Atom.lit "<?xml".toList, Atom.star notGt, Atom.lit "?>".toList],
     ignoreCase := true }, [])

/-- Step 2: the doctype, `<!DOCTYPE[^>]*>` with `gi`, is removed. -/
def stepDoctype : Regex × Str :=
  ({ atoms := [Atom.lit "<!DOCTYPE".toList, Atom.star notGt, Atom.lit ">".toList],
     ignoreCase := true }, [])

/-- Step 3: the opening root tag, `<html[^>]*>` with `gi`, becomes `<div>`. -/
def stepHtmlOpen : Regex × Str :=
  ({ atoms := [Atom.lit "<html".toList, Atom.star notGt, Atom.lit ">".toList],
     ignoreCase := true }, "<div>".toList)

/-- Step 4: the closing root tag, `</html>` with `gi`, becomes `</div>`. -/
def stepHtmlClose : Regex × Str :=
  ({ atoms := [Atom.lit "</html>".toList], ignoreCase := true }, "</div>".toList)

/-- Step 5: the head section, `<head>.*?</head>` with `gis`, is removed. -/
def stepHead : Regex × Str :=
  ({ atoms := [Atom.lit "<head>".toList, Atom.lazyStar dotAll, Atom.lit "</head>".toList],
     ignoreCase := true }, [])

/-- Step 6: the title element, `<title>.*?</title>` with `gis`, is removed. -/
def stepTitle : Regex × Str :=
  ({ atoms := [Atom.lit "<title>".toList, Atom.lazyStar dotAll, Atom.lit "</title>".toList],
     ignoreCase := true }, [])

/-- Step 7: the meta tags, `<meta[^>]*>` with `gi`, are removed. -/
def stepMeta : Regex × Str :=
  ({ atoms := [Atom.lit "<meta".toList, Atom.star notGt, Atom.lit ">".toList],
     ignoreCase := true }, [])

/-- Step 8: the link tags, `<link[^>]*>` with `gi`, are removed. -/
def stepLink : Regex × Str :=
  ({ atoms := [Atom.lit "<link".toList, Atom.star notGt, Atom.lit ">".toList],
     ignoreCase := true }, [])

/-- The eight replacements of the clean-up chain, in order, each a pattern and its
replacement text. -/
def sanitizeSteps : List (Regex × Str) :=
  [stepXml, stepDoctype, stepHtmlOpen, stepHtmlClose, stepHead, stepTitle, stepMeta, stepLink]

/-- One replacement of the chain. -/
def sanitizeStep (step : Regex × Str) (s : Str) : Str :=
  replaceAll step.1 step.2 s

/-- The clean-up chain `content.replace(...). ... .replace(...)` (`cleanContent`). -/
def sanitize (content : Str) : Str :=
  sanitizeSteps.foldl (fun s step => sanitizeStep step s) content

/-- The sort `htmlEntries.sort((a, b) => a.entryName.localeCompare(b.entryName))`:
a stable sort by the collation `cmp`. -/
def sortEntries (cmp : Str → Str → Int) (entries : List Entry) : List Entry :=
  entries.insertionSort (fun a b => cmp a.entryName b.entryName ≤ 0)

/-- The markup entries in the order used for chapter indices (`htmlEntries`). -/
def htmlEntries (cmp : Str → Str → Int) (entries : List Entry) : List Entry :=
  sortEntries cmp (entries.filter isHtml)

/-- The indexing `htmlEntries[chapterIndex]`; `none` is `undefined`. -/
def entryAt (sorted : List Entry) (chapterIndex : Int) : Option Entry :=
  if 0 ≤ chapterIndex then sorted.get? chapterIndex.toNat else none

/-- The body of the `try` block of `getChapterContent`; `none` is a thrown error. -/
def chapterBody (cmp : Str → Str → Int) (zip : Option (List Entry)) (chapterIndex : Int) :
    Option Chapter :=
  match zip with
  | none => none
  | some entries =>
    match entryAt (htmlEntries cmp entries) chapterIndex with
    | some entry =>
      match entry.data with
      | none => none
      | some content =>
        let cleanContent := sanitize content
        some
          { title := chapterTitle (chapterIndex + 1)
            content :=
              if cleanContent = [] then "<p>Chapter content could not be loaded.</p>".toList
              else cleanContent
            chapterIndex := chapterIndex }
    | none =>
      some
        { title := chapterTitle (chapterIndex + 1)
          content := "<p>Chapter not found.</p>".toList
          chapterIndex := chapterIndex }

/-- The method `EPubService.getChapterContent`: `zip` is the outcome of opening the
container at `epubPath` and listing it. -/
def getChapterContent (cmp : Str → Str → Int) (zip : Option (List Entry))
    (chapterIndex : Int) : Chapter :=
  match chapterBody cmp zip chapterIndex with
  | some chapter => chapter
  | none =>
    { title := chapterTitle (chapterIndex + 1)
      content := "<p>Error loading chapter content.</p>".toList
      chapterIndex := chapterIndex }

/-- The order of strings by code points, a sample collation for concrete evaluation. -/
def codePointCompare : Str → Str → Int
  | [], [] => 0
  | [], _ :: _ => -1
  | _ :: _, [] => 1
  | a :: as, b :: bs =>
    if a.toNat < b.toNat then -1
    else if b.toNat < a.toNat then 1
    else codePointCompare as bs

/-! ## Specification-side notions -/

/-- Spec reading of the `i` flag on a literal: the two texts agree up to the case of
their ASCII letters. -/
def CiEq (a b : Str) : Prop :=
  a.map Char.toLower = b.map Char.toLower

/-- Spec reading of "an occurrence of the tag with non-nested text content" at the start
of the text `s`: the opening tag `<name`, up to case, any characters but `>`, a `>`, the
non-empty `content` without `<`, and the closing tag `</name>`, up to case. -/
def TagAtHead (name s content : Str) : Prop :=
  ∃ o attrs c post, s = o ++ (attrs ++ ('>' :: (content ++ (c ++ post)))) ∧
    CiEq o ('<' :: name) ∧ (∀ x ∈ attrs, x ≠ '>') ∧ content ≠ [] ∧
    (∀ x ∈ content, x ≠ '<') ∧ CiEq c ('<' :: '/' :: (name ++ ['>']))

/-- Spec reading of "the first occurrence of the tag": `text` splits into `pre` and a
rest that starts with an occurrence with content `content`, and no rest after a shorter
beginning starts with an occurrence. -/
def FirstTagContent (name text content : Str) : Prop :=
  ∃ pre s, text = pre ++ s ∧ TagAtHead name s content ∧
    ∀ pre2 s2 c2, text = pre2 ++ s2 → pre2.length < pre.length → ¬ TagAtHead name s2 c2

/-- Spec reading of "there is no occurrence of the tag" in `text`. -/
def NoTag (name text : Str) : Prop :=
  ∀ pre s c, text = pre ++ s → ¬ TagAtHead name s c

/-- A pattern is productive when each of its matches is a non-empty beginning of the
text. -/
def Productive (re : Regex) : Prop :=
  ∀ s m g, matchAt re s = some (m, g) → ∃ d m2 r, m = d :: m2 ∧ s = m ++ r

/-- The patterns `L[^>]*>` with the `i` flag, for a literal `L`. -/
def tagPattern (l : Str) : Regex :=
  { atoms := [Atom.lit l, Atom.star notGt, Atom.lit ['>']], ignoreCase := true }

/-- The patterns made of one literal, with the `i` flag. -/
def litPattern (l : Str) : Regex :=
  { atoms := [Atom.lit l], ignoreCase := true }

/-! ## Sample containers -/

/-- A descriptor text: the tag of the title is in upper case and has an attribute,
there are two creators, and there is no language. -/
def sampleOpf : Str :=
  "<package><DC:Title id=\"t\">  Moby Dick\n</dc:title><dc:creator>Herman Melville</dc:creator><dc:creator>Nobody</dc:creator></package>".toList

/-- The container of the scenario of the spec: a descriptor with the title `Sample` and
the creator `Jane Doe`, three markup entries and no navigation document. -/
def scenarioEntries : List Entry :=
  [⟨"mimetype".toList, some "application/epub+zip".toList⟩,
   ⟨"OEBPS/content.opf".toList,
     some "<metadata><dc:title>Sample</dc:title><dc:creator>Jane Doe</dc:creator></metadata>".toList⟩,
   ⟨"OEBPS/ch2.xhtml".toList, some "<html><body><p>two</p></body></html>".toList⟩,
   ⟨"OEBPS/ch1.xhtml".toList, some "<html><body><p>one</p></body></html>".toList⟩,
   ⟨"OEBPS/ch3.html".toList, some "<p>three</p>".toList⟩]

/-- A container with two markup entries, no navigation entry and a descriptor entry
that cannot be read. -/
def unreadableOpfEntries : List Entry :=
  [⟨"OEBPS/content.opf".toList, none⟩,
   ⟨"OEBPS/ch1.xhtml".toList, some "<p>one</p>".toList⟩,
   ⟨"OEBPS/ch2.xhtml".toList, some "<p>two</p>".toList⟩]

/-- A container with a navigation document of two labels, no markup entry and no
descriptor. -/
def ncxOnlyEntries : List Entry :=
  [⟨"mimetype".toList, some "application/epub+zip".toList⟩,
   ⟨"book.ncx".toList,
     some "<navMap><navPoint><navLabel><text>One</text></navLabel></navPoint><navPoint><navLabel><text>Two</text></navLabel></navPoint></navMap>".toList⟩]

/-- The order of entries induced by a collation of their names. -/
@[reducible] def nameLe (cmp : Str → Str → Int) (a b : Entry) : Prop :=
  cmp a.entryName b.entryName ≤ 0

/-- A container of three markup entries, listed out of order. -/
def shuffledEntries : List Entry :=
  [⟨"OEBPS/ch3.xhtml".toList, some "<html><body><p>three</p></body></html>".toList⟩,
   ⟨"OEBPS/content.opf".toList, some "<dc:title>T</dc:title>".toList⟩,
   ⟨"OEBPS/ch1.xhtml".toList, some "<html><body><p>one</p></body></html>".toList⟩,
   ⟨"OEBPS/ch2.xhtml".toList, some "<html><body><p>two</p></body></html>".toList⟩]

/-- The container `shuffledEntries` listed in another order. -/
def reshuffledEntries : List Entry :=
  [⟨"OEBPS/ch2.xhtml".toList, some "<html><body><p>two</p></body></html>".toList⟩,
   ⟨"OEBPS/ch1.xhtml".toList, some "<html><body><p>one</p></body></html>".toList⟩,
   ⟨"OEBPS/content.opf".toList, some "<dc:title>T</dc:title>".toList⟩,
   ⟨"OEBPS/ch3.xhtml".toList, some "<html><body><p>three</p></body></html>".toList⟩]

/-- A container whose only markup entry holds a head section and nothing else. -/
def headOnlyEntries : List Entry :=
  [⟨"OEBPS/title.xhtml".toList, some "<head><title>Title page</title></head>".toList⟩]

/-- A chapter markup with a head section whose tag has an attribute. -/
def headWithAttribute : Str :=
  "<head lang=\"en\"><title>Title page</title><meta charset=\"utf-8\"></head><p>Hello</p>".toList

/-- A chapter markup in which the removal of one head section brings the two halves of
another one together. -/
def splitHead : Str :=
  "<he<head></head>ad><title>Title page</title></head><p>Hello</p>".toList

/-! ## Steps of `parseEpub` taken apart -/

/-- The metadata after the descriptor step of `parseEpub`: the initial metadata when no
entry is selected by `entries.find`, the fields of the descriptor text laid over them
when the selected entry is readable; `none` when reading that entry throws. -/
def descriptorStep (filePath : Str) (entries : List Entry) (now : Nat) : Option Metadata :=
  match entries.find? isOpf with
  | some opfEntry =>
    match opfEntry.data with
    | some opfContent => some (applyDescriptor (initialMetadata filePath now) opfContent)
    | none => none
  | none => some (initialMetadata filePath now)

/-- Whether `parseEpub` reaches the file-system calls of the cover step
(`fs.ensureDirSync`, `fs.writeFileSync`): the container opens, reading the descriptor
does not throw, there is a cover candidate and reading the first one does not throw. -/
def attemptsCoverWrite (zip : Option (List Entry)) : Bool :=
  match zip with
  | none => false
  | some entries =>
    (match entries.find? isOpf with
      | some opfEntry => opfEntry.data.isSome
      | none => true) &&
    (match entries.filter isCoverImage with
      | [] => false
      | coverEntry :: _ => coverEntry.data.isSome)

/-- Spec reading of "had cover extraction been skipped": the body of the `try` block of
`parseEpub` without its cover step, `coverImage` staying `null`. -/
def parseBodyWithoutCover (filePath : Str) (zip : Option (List Entry)) (now : Nat) :
    Option ParseResult :=
  match zip with
  | none => none
  | some entries =>
    match descriptorStep filePath entries now with
    | none => none
    | some metadata =>
      let rows := navigationRows entries
      let toc := if rows.length = 0 then defaultChapters entries else rows
      some { metadata := { metadata with tableOfContents := toc, coverImage := none },
             totalChapters := toc.length }

/-- Spec reading of "had cover extraction been skipped": `parseEpub` without its cover
step. -/
def parseEpubWithoutCover (filePath : Str) (zip : Option (List Entry)) (now : Nat) :
    ParseResult :=
  match parseBodyWithoutCover filePath zip now with
  | some result => result
  | none => fallbackResult filePath now

/-- Spec reading of "descriptor candidate": the name ends in `.opf` or contains
`content.opf`. -/
def IsDescriptorName (name : Str) : Prop :=
  ".opf".toList <:+ name ∨ "content.opf".toList <:+: name

/-- Spec reading of "image entry": the name ends in `.jpg`, `.jpeg` or `.png`. -/
def IsImageName (name : Str) : Prop :=
  ".jpg".toList <:+ name ∨ ".jpeg".toList <:+ name ∨ ".png".toList <:+ name

/-! ## Steps of the title derivation, said directly -/

/-- The text after a leading hyphen, if there is one. -/
def dropHyphen : Str → Option Str
  | [] => none
  | c :: rest => if c = '-' then some rest else none

/-- Spec reading of "strip one leading prefix of the form digits-digits-": when the text
starts with digits, a hyphen, digits and a hyphen, what follows; else the text. -/
def stripNumericPrefix (s : Str) : Str :=
  match dropHyphen (s.dropWhile isDigit) with
  | none => s
  | some afterFirst =>
    match dropHyphen (afterFirst.dropWhile isDigit) with
    | none => s
    | some afterSecond =>
      if s.takeWhile isDigit = [] ∨ afterFirst.takeWhile isDigit = [] then s
      else afterSecond

/-- Spec reading of "replace every `-` and `_` by a space". -/
def separatorsToSpaces (s : Str) : Str :=
  s.map (fun c => if c = '-' ∨ c = '_' then ' ' else c)

/-! ## The upload middleware -/

/-- The file name given by `storage.filename` of `uploadMiddleware.js`: the user id, the
time stamp `Date.now()`, the random integer and the original name, joined by hyphens. -/
def storedFilename (userId : Str) (timestamp random : Nat) (originalname : Str) : Str :=
  userId ++ "-".toList ++ (Nat.toDigits 10 timestamp ++ "-".toList ++ Nat.toDigits 10 random) ++
    "-".toList ++ originalname

/-- The path of an uploaded file: the file name of `storage.filename` in the directory
of `storage.destination`. -/
def storedPath (uploadsDir userId : Str) (timestamp random : Nat) (originalname : Str) : Str :=
  uploadsDir ++ "/".toList ++ storedFilename userId timestamp random originalname

/-! ## More sample containers -/

/-- A container with two descriptor candidates, the one named `content.opf` second. -/
def twoOpfEntries : List Entry :=
  [⟨"OEBPS/package.opf".toList, some "<dc:title>From package</dc:title>".toList⟩,
   ⟨"OEBPS/content.opf".toList, some "<dc:title>From content</dc:title>".toList⟩,
   ⟨"OEBPS/ch1.xhtml".toList, some "<p>one</p>".toList⟩]

/-- The container `scenarioEntries` with a navigation document that cannot be read. -/
def unreadableNavEntries : List Entry :=
  scenarioEntries ++ [⟨"OEBPS/toc.ncx".toList, none⟩]

/-- The container `scenarioEntries` with a cover image. -/
def coverEntries : List Entry :=
  scenarioEntries ++ [⟨"OEBPS/images/cover.jpg".toList, some "JFIF".toList⟩]

/-- The container `scenarioEntries` with a cover image named in upper case. -/
def upperCoverEntries : List Entry :=
  scenarioEntries ++ [⟨"OEBPS/images/COVER.jpg".toList, some "JFIF".toList⟩]

/-- A navigation document as NCX files are laid out, each label on lines of its own. -/
def multiLineNcx : Str :=
  "<navMap>\n<navPoint id=\"n1\">\n<navLabel>\n<text>Opening</text>\n</navLabel>\n</navPoint>\n<navPoint id=\"n2\">\n<navLabel>\n<text>Ending</text>\n</navLabel>\n</navPoint>\n</navMap>".toList

/-- The navigation document `multiLineNcx` with its line breaks removed. -/
def oneLineNcx : Str :=
  "<navMap><navPoint id=\"n1\"><navLabel><text>Opening</text></navLabel></navPoint><navPoint id=\"n2\"><navLabel><text>Ending</text></navLabel></navPoint></navMap>".toList

/-- A container whose only chapter holds the text of the not-found paragraph. -/
def notFoundTextEntries : List Entry :=
  [⟨"OEBPS/ch1.xhtml".toList, some "<p>Chapter not found.</p>".toList⟩]

/-- A container whose descriptor has a title element and a creator element that hold
white space only. -/
def blankTitleEntries : List Entry :=
  [⟨"OEBPS/content.opf".toList,
     some "<metadata><dc:title>   </dc:title><dc:creator>\n\t</dc:creator></metadata>".toList⟩,
   ⟨"OEBPS/ch1.xhtml".toList, some "<p>one</p>".toList⟩]

/-- A container with a descriptor, the navigation document `navContent` and three markup
entries. -/
def ncxContainer (navContent : Str) : List Entry :=
  scenarioEntries ++ [⟨"OEBPS/toc.ncx".toList, some navContent⟩]

/-! ## A model of the platform collation

`localeCompare` compares names by the Unicode collation algorithm: sort keys of three
levels (letters, accents, case), with canonically equivalent spellings of a name given
the same key.  The model below follows it on names made of ASCII letters, digits, `.`,
`/` and the letter `é` in either of its two spellings. -/

/-- Whether the character is the combining acute accent (U+0301). -/
def isAcute (c : Char) : Bool :=
  c.toNat == 769

/-- Canonical decomposition, for the accented letter of the samples: `é` (U+00E9) is `e`
followed by the combining acute accent (U+0301); every other character is kept. -/
def decompose : Str → Str
  | [] => []
  | c :: cs =>
    if c.toNat == 233 then 'e' :: Char.ofNat 769 :: decompose cs else c :: decompose cs

/-- The base characters of a decomposed name: the accents are left out. -/
def baseChars (s : Str) : Str :=
  (decompose s).filter (fun c => !isAcute c)

/-- First level of the sort key: the base characters in lower case. -/
def primaryKey (s : Str) : Str :=
  (baseChars s).map Char.toLower

/-- For each base character of a decomposed name, `1` when an accent follows it and `0`
when none does. -/
def accentMarks : Str → Str
  | [] => []
  | c :: cs =>
    if isAcute c then accentMarks cs
    else
      (match cs with
        | d :: _ => if isAcute d then '1' else '0'
        | [] => '0') :: accentMarks cs

/-- Second level of the sort key: the accents, base character by base character. -/
def accentKey (s : Str) : Str :=
  accentMarks (decompose s)

/-- Third level of the sort key: the case, base character by base character, lower case
before upper case. -/
def caseKey (s : Str) : Str :=
  (baseChars s).map (fun c => if c.isUpper then '1' else '0')

/-- The sort key of a name: its three levels, separated by the lowest character. -/
def sortKey (s : Str) : Str :=
  primaryKey s ++ Char.ofNat 0 :: (accentKey s ++ Char.ofNat 0 :: caseKey s)

/-- A model of `String.prototype.localeCompare` on names made of ASCII letters, digits,
`.`, `/` and the letter `é` in either spelling: the comparison of the sort keys.  Names
are compared by their letters without regard to accent and case; when these are the
same, by their accents; when these are the same too, by their case, lower case first.
Two canonically equivalent spellings of a name compare as equal. -/
def localeCompareModel (a b : Str) : Int :=
  codePointCompare (sortKey a) (sortKey b)

/-! ## Sample containers for chapter retrieval -/

/-- A container with two chapters whose names differ in the case of a letter. -/
def caseEntries : List Entry :=
  [⟨"OEBPS/B.xhtml".toList, some "<p>upper</p>".toList⟩,
   ⟨"OEBPS/a.xhtml".toList, some "<p>lower</p>".toList⟩]

/-- A container with two chapters whose names are the two spellings of one name: `é` as
one character (U+00E9), then `e` followed by the combining accent (U+0301). -/
def composedFirstEntries : List Entry :=
  [⟨"OEBPS/caf\u00e9.xhtml".toList, some "<p>composed</p>".toList⟩,
   ⟨"OEBPS/cafe\u0301.xhtml".toList, some "<p>decomposed</p>".toList⟩]

/-- The container `composedFirstEntries` listed in the other order. -/
def decomposedFirstEntries : List Entry :=
  [⟨"OEBPS/cafe\u0301.xhtml".toList, some "<p>decomposed</p>".toList⟩,
   ⟨"OEBPS/caf\u00e9.xhtml".toList, some "<p>composed</p>".toList⟩]

/-- A container whose only chapter cannot be read. -/
def unreadableChapterEntries : List Entry :=
  [⟨"OEBPS/ch1.xhtml".toList, none⟩]

/-! ## Basic facts about the string primitives -/

theorem startsWith_iff (s sub : Str) : startsWith s sub = true ↔ sub <+: s := by
  induction s generalizing sub with
  | nil => cases sub <;> simp [startsWith]
  | cons c cs ih =>
    cases sub with
    | nil => simp [startsWith]
    | cons d ds =>
      simp only [startsWith, Bool.and_eq_true, beq_iff_eq, ih, List.cons_prefix_cons]
      constructor
      · rintro ⟨h, h2⟩; exact ⟨h.symm, h2⟩
      · rintro ⟨h, h2⟩; exact ⟨h.symm, h2⟩

theorem includes_iff (s sub : Str) : includes s sub = true ↔ sub <:+: s := by
  induction s with
  | nil =>
    simp only [includes, startsWith_iff]
    constructor
    · intro h; exact h.isInfix
    · intro h
      have := List.eq_nil_of_infix_nil h
      simp [this]
  | cons c cs ih =>
    simp only [includes, Bool.or_eq_true, startsWith_iff, ih, List.infix_cons_iff]

theorem endsWith_iff (s suffix : Str) : endsWith s suffix = true ↔ suffix <:+ s := by
  simp [endsWith]

theorem length_defaultRows (i n : Nat) : (defaultRows i n).length = n := by
  induction n generalizing i with
  | zero => rfl
  | succ n ih => simp [defaultRows, ih]

theorem length_defaultChapters (entries : List Entry) :
    (defaultChapters entries).length = max 1 (entries.filter isHtml).length := by
  simp [defaultChapters, length_defaultRows]

theorem length_htmlEntries (cmp : Str → Str → Int) (entries : List Entry) :
    (htmlEntries cmp entries).length = (entries.filter isHtml).length := by
  simp [htmlEntries, sortEntries, List.length_insertionSort]

/-- The result of `parseBody` has as many chapters as rows, and at least one. -/
theorem parseBody_chapters (filePath : Str) (zip : Option (List Entry)) (now : Nat)
    (writeOk : Bool) (r : ParseResult) (h : parseBody filePath zip now writeOk = some r) :
    1 ≤ r.totalChapters ∧ r.totalChapters = r.metadata.tableOfContents.length := by
  unfold parseBody at h
  cases zip with
  | none => simp at h
  | some entries =>
    simp only at h
    split at h
    · simp at h
    · rename_i metadata _
      simp only [Option.some.injEq] at h
      subst h
      refine ⟨?_, rfl⟩
      simp only
      split
      · rw [length_defaultChapters]; exact le_max_left _ _
      · omega

/-- Claim C1: whatever the container (opened or not, any entries with any contents,
readable or not) and whatever the outcome of the cover write, `parseEpub` returns a
result with at least one chapter and with `totalChapters` equal to the length of the
table of contents; in particular the table of contents is never empty. -/
theorem parseEpub_totalChapters (filePath : Str) (zip : Option (List Entry)) (now : Nat)
    (writeOk : Bool) :
    1 ≤ (parseEpub filePath zip now writeOk).totalChapters ∧
    (parseEpub filePath zip now writeOk).totalChapters =
      (parseEpub filePath zip now writeOk).metadata.tableOfContents.length ∧
    (parseEpub filePath zip now writeOk).metadata.tableOfContents ≠ [] := by
  have key : 1 ≤ (parseEpub filePath zip now writeOk).totalChapters ∧
      (parseEpub filePath zip now writeOk).totalChapters =
        (parseEpub filePath zip now writeOk).metadata.tableOfContents.length := by
    unfold parseEpub
    cases h : parseBody filePath zip now writeOk with
    | none => simp [fallbackResult]
    | some r => exact parseBody_chapters filePath zip now writeOk r h
  refine ⟨key.1, key.2, ?_⟩
  intro hnil
  have h1 := key.1
  rw [key.2, hnil] at h1
  simp at h1

/-- Claim C2: for a container that opens and a chapter index that is negative or not
below the number of markup entries, `getChapterContent` returns a record whose content
is `<p>Chapter not found.</p>` and whose index is the index given; for an index of the
safe range (`IsSafeInteger`, on which the arithmetic of the code is that of the
integers) the record is the one with the title `Chapter (index+1)`. -/
theorem getChapterContent_out_of_range (cmp : Str → Str → Int) (entries : List Entry)
    (chapterIndex : Int)
    (h : chapterIndex < 0 ∨ ((entries.filter isHtml).length : Int) ≤ chapterIndex) :
    (getChapterContent cmp (some entries) chapterIndex).content =
      "<p>Chapter not found.</p>".toList ∧
    (getChapterContent cmp (some entries) chapterIndex).chapterIndex = chapterIndex ∧
    (IsSafeInteger chapterIndex →
      getChapterContent cmp (some entries) chapterIndex =
        { title := "Chapter ".toList ++ numToStr (chapterIndex + 1)
          content := "<p>Chapter not found.</p>".toList
          chapterIndex := chapterIndex }) := by
  have hnone : entryAt (htmlEntries cmp entries) chapterIndex = none := by
    unfold entryAt
    split
    · rename_i h0
      rw [List.get?_eq_none]
      rw [length_htmlEntries]
      rcases h with h | h
      · omega
      · omega
    · rfl
  refine ⟨?_, ?_, fun _ => ?_⟩ <;> simp [getChapterContent, chapterBody, hnone, chapterTitle]

theorem getChapterContent_out_of_range_witness :
    (((([⟨"b.xhtml".toList, some "<p>b</p>".toList⟩, ⟨"a.html".toList, none⟩] :
        List Entry).filter isHtml).length : Int) ≤ 2) ∧
    IsSafeInteger 2 ∧
    getChapterContent codePointCompare
      (some [⟨"b.xhtml".toList, some "<p>b</p>".toList⟩, ⟨"a.html".toList, none⟩]) 2 =
      { title := "Chapter 3".toList
        content := "<p>Chapter not found.</p>".toList
        chapterIndex := 2 } :=
  ⟨by decide, by decide,
    (getChapterContent_out_of_range codePointCompare _ 2 (Or.inr (by decide))).2.2
      (by decide)⟩

theorem isOpf_iff (entry : Entry) :
    isOpf entry = true ↔
      ".opf".toList <:+ entry.entryName ∨ "content.opf".toList <:+: entry.entryName := by
  simp only [isOpf, Bool.or_eq_true, endsWith_iff, includes_iff]

/-- Without a descriptor entry the body of `parseEpub` does not throw and keeps the
initial title, author, language and publisher. -/
theorem parseBody_without_descriptor (filePath : Str) (entries : List Entry) (now : Nat)
    (writeOk : Bool) (h : entries.find? isOpf = none) :
    ∃ r, parseBody filePath (some entries) now writeOk = some r ∧
      r.metadata.title = extractTitleFromFilename filePath ∧
      r.metadata.author = "Unknown Author".toList ∧
      r.metadata.language = "en".toList ∧
      r.metadata.publisher = [] ∧
      r.metadata.tableOfContents =
        (if (navigationRows entries).length = 0 then defaultChapters entries
         else navigationRows entries) ∧
      r.totalChapters = r.metadata.tableOfContents.length := by
  simp [parseBody, h, initialMetadata]

/-- Claim C7: for every container that opens and has no entry whose name ends in
`.opf` or contains `content.opf`, `parseEpub` returns the author `Unknown Author`, the
language `en`, the empty publisher and the title `extractTitleFromFilename(filePath)`. -/
theorem parseEpub_defaults_without_descriptor (filePath : Str) (entries : List Entry)
    (now : Nat) (writeOk : Bool)
    (h : ∀ entry ∈ entries, ¬ (".opf".toList <:+ entry.entryName ∨
      "content.opf".toList <:+: entry.entryName)) :
    (parseEpub filePath (some entries) now writeOk).metadata.author = "Unknown Author".toList ∧
    (parseEpub filePath (some entries) now writeOk).metadata.language = "en".toList ∧
    (parseEpub filePath (some entries) now writeOk).metadata.publisher = [] ∧
    (parseEpub filePath (some entries) now writeOk).metadata.title =
      extractTitleFromFilename filePath := by
  have hfind : entries.find? isOpf = none := by
    rw [List.find?_eq_none]
    intro entry hmem hopf
    exact h entry hmem ((isOpf_iff entry).1 hopf)
  obtain ⟨r, hr, ht, ha, hl, hp, _, _⟩ :=
    parseBody_without_descriptor filePath entries now writeOk hfind
  simp [parseEpub, hr, ht, ha, hl, hp]

theorem parseEpub_defaults_without_descriptor_witness :
    (parseEpub "/uploads/books/7-1700000000000-42-moby_dick.epub".toList
      (some [⟨"mimetype".toList, some "application/epub+zip".toList⟩,
        ⟨"ch1.xhtml".toList, some "<p>Call me Ishmael.</p>".toList⟩]) 0 true).metadata.author =
      "Unknown Author".toList ∧
    (parseEpub "/uploads/books/7-1700000000000-42-moby_dick.epub".toList
      (some [⟨"mimetype".toList, some "application/epub+zip".toList⟩,
        ⟨"ch1.xhtml".toList, some "<p>Call me Ishmael.</p>".toList⟩]) 0 true).metadata.language =
      "en".toList ∧
    (parseEpub "/uploads/books/7-1700000000000-42-moby_dick.epub".toList
      (some [⟨"mimetype".toList, some "application/epub+zip".toList⟩,
        ⟨"ch1.xhtml".toList, some "<p>Call me Ishmael.</p>".toList⟩]) 0 true).metadata.publisher =
      [] ∧
    (parseEpub "/uploads/books/7-1700000000000-42-moby_dick.epub".toList
      (some [⟨"mimetype".toList, some "application/epub+zip".toList⟩,
        ⟨"ch1.xhtml".toList, some "<p>Call me Ishmael.</p>".toList⟩]) 0 true).metadata.title =
      extractTitleFromFilename "/uploads/books/7-1700000000000-42-moby_dick.epub".toList :=
  parseEpub_defaults_without_descriptor _ _ 0 true (by
    intro entry hmem
    rw [← isOpf_iff]
    revert entry
    decide)

/-! ## Facts about the matcher -/

theorem matchLit_eq_some (ci : Bool) (l s m r : Str) :
    matchLit ci l s = some (m, r) ↔
      s = m ++ r ∧ List.Forall₂ (fun a b => chEq ci a b = true) l m := by
  induction l generalizing s m with
  | nil =>
    simp only [matchLit, Option.some.injEq, Prod.mk.injEq, List.forall₂_nil_left_iff]
    constructor
    · rintro ⟨rfl, rfl⟩; simp
    · rintro ⟨h, rfl⟩; simp [h]
  | cons a l ih =>
    cases s with
    | nil =>
      simp only [matchLit, reduceCtorEq, false_iff]
      rintro ⟨h1, h2⟩
      cases h2
      simp at h1
    | cons c cs =>
      simp only [matchLit]
      by_cases hc : chEq ci a c = true
      · simp only [hc, if_true]
        cases hrec : matchLit ci l cs with
        | none =>
          simp only [reduceCtorEq, false_iff]
          rintro ⟨h1, h2⟩
          cases h2 with
          | cons hab htl =>
            rename_i b m2
            simp only [List.cons_append, List.cons.injEq] at h1
            have := (ih cs m2).2 ⟨h1.2, htl⟩
            rw [hrec] at this
            cases this
        | some mr =>
          obtain ⟨m1, r1⟩ := mr
          have h3 := (ih cs m1).1
          simp only [Option.some.injEq, Prod.mk.injEq]
          constructor
          · rintro ⟨rfl, rfl⟩
            have := (ih cs m1).1 hrec
            exact ⟨by simp [this.1], List.Forall₂.cons hc this.2⟩
          · rintro ⟨h1, h2⟩
            cases h2 with
            | cons hab htl =>
              rename_i b m2
              simp only [List.cons_append, List.cons.injEq] at h1
              have := (ih cs m2).2 ⟨h1.2, htl⟩
              rw [hrec] at this
              simp only [Option.some.injEq, Prod.mk.injEq] at this
              exact ⟨by rw [h1.1, this.1], this.2⟩
      · simp only [hc, if_false, reduceCtorEq, false_iff]
        rintro ⟨h1, h2⟩
        cases h2 with
        | cons hab htl =>
          simp only [List.cons_append, List.cons.injEq] at h1
          rw [← h1.1] at hab
          exact hc hab

theorem chEq_true_iff (a b : Char) : chEq true a b = true ↔ b.toLower = a.toLower := by
  simp only [chEq, if_true, beq_iff_eq]
  exact eq_comm

theorem forall₂_chEq_true (l m : Str) :
    List.Forall₂ (fun a b => chEq true a b = true) l m ↔ CiEq m l := by
  unfold CiEq
  induction l generalizing m with
  | nil =>
    simp only [List.forall₂_nil_left_iff, List.map_nil, List.map_eq_nil_iff]
  | cons a l ih =>
    cases m with
    | nil => simp
    | cons b m =>
      rw [List.forall₂_cons, ih, chEq_true_iff]
      simp only [List.map_cons, List.cons.injEq]

/-- A literal under the `i` flag matches exactly the texts that agree with it up to
case. -/
theorem matchLit_ci_eq_some (l s m r : Str) :
    matchLit true l s = some (m, r) ↔ s = m ++ r ∧ CiEq m l := by
  rw [matchLit_eq_some, forall₂_chEq_true]

/-- What a successful greedy repetition consumed. -/
theorem greedy_eq_some (p : Char → Bool) (k : Str → Option (Str × Str)) (s m g : Str)
    (h : greedy p k s = some (m, g)) :
    ∃ a rest m2, s = a ++ rest ∧ (∀ x ∈ a, p x = true) ∧ k rest = some (m2, g) ∧
      m = a ++ m2 := by
  induction s generalizing m with
  | nil => exact ⟨[], [], m, rfl, by simp, h, rfl⟩
  | cons c cs ih =>
    simp only [greedy] at h
    by_cases hp : p c = true
    · simp only [hp, if_true] at h
      cases hrec : greedy p k cs with
      | none =>
        rw [hrec] at h
        exact ⟨[], c :: cs, m, rfl, by simp, h, rfl⟩
      | some mg =>
        obtain ⟨m1, g1⟩ := mg
        rw [hrec] at h
        simp only [Option.some.injEq, Prod.mk.injEq] at h
        obtain ⟨a, rest, m2, h1, h2, h3, h4⟩ := ih m1 (by rw [hrec, h.2])
        refine ⟨c :: a, rest, m2, by simp [h1], ?_, h3, by simp [← h.1, h4]⟩
        intro x hx
        rcases List.mem_cons.1 hx with rfl | hx
        · exact hp
        · exact h2 x hx
    · simp only [hp] at h
      exact ⟨[], c :: cs, m, rfl, by simp, h, rfl⟩

/-- A greedy repetition that can take all of `a`, cannot go further and whose
continuation then succeeds, takes exactly `a`. -/
theorem greedy_append (p : Char → Bool) (k : Str → Option (Str × Str)) (a rest m2 g : Str)
    (ha : ∀ x ∈ a, p x = true) (hstop : ∀ d ds, rest = d :: ds → p d = false)
    (hk : k rest = some (m2, g)) :
    greedy p k (a ++ rest) = some (a ++ m2, g) := by
  induction a with
  | nil =>
    cases rest with
    | nil => simpa [greedy] using hk
    | cons d ds =>
      have := hstop d ds rfl
      simp [greedy, this, hk]
  | cons c a ih =>
    have hc : p c = true := ha c (List.mem_cons_self _ _)
    have := ih (fun x hx => ha x (List.mem_cons_of_mem _ hx))
    simp [greedy, hc, this]

/-- What a successful greedy repetition inside the capture group consumed. -/
theorem greedyCap_eq_some (p : Char → Bool) (k : Str → Option (Str × Str)) (s m g : Str)
    (h : greedyCap p k s = some (m, g)) :
    ∃ rest m2 g2, s = g ++ rest ∧ (∀ x ∈ g, p x = true) ∧ k rest = some (m2, g2) ∧
      m = g ++ m2 := by
  induction s generalizing m g with
  | nil =>
    simp only [greedyCap] at h
    cases hk : k [] with
    | none => simp [hk] at h
    | some mg =>
      obtain ⟨m1, g1⟩ := mg
      simp only [hk, Option.some.injEq, Prod.mk.injEq] at h
      exact ⟨[], m1, g1, by simp [← h.2], by simp [← h.2], hk, by simp [← h.2, h.1]⟩
  | cons c cs ih =>
    have base : ∀ m g, (match k (c :: cs) with
        | some (m, _) => some (m, ([] : Str))
        | none => none) = some (m, g) →
        ∃ rest m2 g2, c :: cs = g ++ rest ∧ (∀ x ∈ g, p x = true) ∧
          k rest = some (m2, g2) ∧ m = g ++ m2 := by
      intro m g h
      cases hk : k (c :: cs) with
      | none => simp [hk] at h
      | some mg =>
        obtain ⟨m1, g1⟩ := mg
        simp only [hk, Option.some.injEq, Prod.mk.injEq] at h
        exact ⟨c :: cs, m1, g1, by simp [← h.2], by simp [← h.2], hk, by simp [← h.2, h.1]⟩
    simp only [greedyCap] at h
    by_cases hp : p c = true
    · simp only [hp, if_true] at h
      cases hrec : greedyCap p k cs with
      | none =>
        rw [hrec] at h
        exact base m g h
      | some mg =>
        obtain ⟨m1, g1⟩ := mg
        rw [hrec] at h
        simp only [Option.some.injEq, Prod.mk.injEq] at h
        obtain ⟨rest, m2, g2, h1, h2, h3, h4⟩ := ih m1 g1 hrec
        refine ⟨rest, m2, g2, ?_, ?_, h3, ?_⟩
        · rw [← h.2]; simp [← h1]
        · intro x hx
          rw [← h.2] at hx
          rcases List.mem_cons.1 hx with rfl | hx
          · exact hp
          · exact h2 x hx
        · rw [← h.1, ← h.2, h4]; simp
    · simp only [hp] at h
      exact base m g h

/-- Inside the capture group, a repetition that can take all of `a`, cannot go further
and whose continuation then succeeds, captures exactly `a`. -/
theorem greedyCap_append (p : Char → Bool) (k : Str → Option (Str × Str))
    (a rest m2 g2 : Str)
    (ha : ∀ x ∈ a, p x = true) (hstop : ∀ d ds, rest = d :: ds → p d = false)
    (hk : k rest = some (m2, g2)) :
    greedyCap p k (a ++ rest) = some (a ++ m2, a) := by
  induction a with
  | nil =>
    cases rest with
    | nil => simp [greedyCap, hk]
    | cons d ds =>
      have := hstop d ds rfl
      simp [greedyCap, this, hk]
  | cons c a ih =>
    have hc : p c = true := ha c (List.mem_cons_self _ _)
    have := ih (fun x hx => ha x (List.mem_cons_of_mem _ hx))
    simp [greedyCap, hc, this]

/-- A character that is not a lower-case ASCII letter is the lower-case form of itself
only. -/
theorem eq_of_toLower_eq (x t : Char) (ht : ¬ (97 ≤ t.toNat ∧ t.toNat ≤ 122))
    (h : x.toLower = t) : x = t := by
  unfold Char.toLower at h
  simp only at h
  split at h
  · rename_i hx
    exfalso
    obtain ⟨h1, h2⟩ := hx
    generalize x.toNat = n at h h1 h2
    subst h
    interval_cases n <;> exact ht (by decide)
  · exact h

theorem ciEq_nil_right (a : Str) : CiEq a [] ↔ a = [] := by
  simp [CiEq]

theorem ciEq_cons_right (a : Str) (t : Char) (l : Str) :
    CiEq a (t :: l) ↔ ∃ x xs, a = x :: xs ∧ x.toLower = t.toLower ∧ CiEq xs l := by
  cases a with
  | nil => simp [CiEq]
  | cons x xs =>
    simp only [CiEq, List.map_cons, List.cons.injEq]
    constructor
    · rintro ⟨h1, h2⟩; exact ⟨x, xs, ⟨rfl, rfl⟩, h1, h2⟩
    · rintro ⟨y, ys, ⟨rfl, rfl⟩, h1, h2⟩; exact ⟨h1, h2⟩

theorem matchAtoms_lit (ci : Bool) (l : Str) (rest : List Atom) (s : Str) :
    matchAtoms ci (Atom.lit l :: rest) s =
      match matchLit ci l s with
      | some (m, r) =>
        match matchAtoms ci rest r with
        | some (m2, g) => some (m ++ m2, g)
        | none => none
      | none => none := by
  rw [matchAtoms]

theorem matchAtoms_star (ci : Bool) (p : Char → Bool) (rest : List Atom) (s : Str) :
    matchAtoms ci (Atom.star p :: rest) s = greedy p (matchAtoms ci rest) s := by
  rw [matchAtoms]

theorem matchAtoms_capPlus (ci : Bool) (p : Char → Bool) (rest : List Atom) (c : Char)
    (cs : Str) :
    matchAtoms ci (Atom.capPlus p :: rest) (c :: cs) =
      if p c then
        match greedyCap p (matchAtoms ci rest) cs with
        | some (m, g) => some (c :: m, c :: g)
        | none => none
      else none := by
  rw [matchAtoms]

theorem matchAtoms_capPlus_nil (ci : Bool) (p : Char → Bool) (rest : List Atom) :
    matchAtoms ci (Atom.capPlus p :: rest) [] = none := by
  rw [matchAtoms]

theorem matchAtoms_nil (ci : Bool) (s : Str) : matchAtoms ci [] s = some ([], []) := by
  rw [matchAtoms]

/-! ## Descriptor fields -/

/-- The descriptor pattern matches at the start of a text that starts with an
occurrence of the tag, and captures the content of the occurrence. -/
theorem matchAt_tagRe_of_tagAtHead (name s content : Str) (h : TagAtHead name s content) :
    ∃ m, matchAt (tagRe name) s = some (m, content) := by
  obtain ⟨o, attrs, c, post, hs, ho, hattrs, hne, hcontent, hc⟩ := h
  obtain ⟨d, c2, rfl, hd, _⟩ := (ciEq_cons_right c '<' _).1 hc
  have hd2 : d = '<' := eq_of_toLower_eq d '<' (by decide) hd
  subst hd2
  cases content with
  | nil => exact absurd rfl hne
  | cons x xs =>
    have h5 : matchAtoms true [Atom.lit ('<' :: '/' :: (name ++ ['>']))] (('<' :: c2) ++ post) =
        some (('<' :: c2) ++ [], []) := by
      have := (matchLit_ci_eq_some ('<' :: '/' :: (name ++ ['>'])) (('<' :: c2) ++ post)
        ('<' :: c2) post).2 ⟨rfl, hc⟩
      rw [matchAtoms_lit, this]
      simp only [matchAtoms_nil]
    have h4 : matchAtoms true [Atom.capPlus notLt, Atom.lit ('<' :: '/' :: (name ++ ['>']))]
        ((x :: xs) ++ (('<' :: c2) ++ post)) = some (x :: (xs ++ (('<' :: c2) ++ [])), x :: xs) := by
      have hx : notLt x = true := by
        have := hcontent x (List.mem_cons_self _ _)
        simp [notLt, this]
      have := greedyCap_append notLt
        (matchAtoms true [Atom.lit ('<' :: '/' :: (name ++ ['>']))]) xs (('<' :: c2) ++ post)
        (('<' :: c2) ++ []) []
        (fun y hy => by
          have := hcontent y (List.mem_cons_of_mem _ hy)
          simp [notLt, this])
        (fun d ds hds => by
          simp only [List.cons_append, List.cons.injEq] at hds
          rw [← hds.1]; rfl)
        h5
      rw [List.cons_append, matchAtoms_capPlus, this]
      simp only [hx, if_true]
    have h3 : matchAtoms true [Atom.lit ['>'], Atom.capPlus notLt,
        Atom.lit ('<' :: '/' :: (name ++ ['>']))]
        ('>' :: ((x :: xs) ++ (('<' :: c2) ++ post))) =
        some (['>'] ++ (x :: (xs ++ (('<' :: c2) ++ []))), x :: xs) := by
      have hl : matchLit true ['>'] ('>' :: ((x :: xs) ++ (('<' :: c2) ++ post))) =
          some (['>'], (x :: xs) ++ (('<' :: c2) ++ post)) := by
        simp [matchLit, chEq]
      rw [matchAtoms_lit, hl]
      simp only
      rw [h4]
    have h2 := greedy_append notGt (matchAtoms true [Atom.lit ['>'], Atom.capPlus notLt,
        Atom.lit ('<' :: '/' :: (name ++ ['>']))]) attrs
        ('>' :: ((x :: xs) ++ (('<' :: c2) ++ post))) _ _
        (fun y hy => by
          have := hattrs y hy
          simp [notGt, this])
        (fun d ds hds => by
          simp only [List.cons.injEq] at hds
          rw [← hds.1]; rfl)
        h3
    have h1 : matchLit true ('<' :: name) s =
        some (o, attrs ++ ('>' :: ((x :: xs) ++ (('<' :: c2) ++ post)))) :=
      (matchLit_ci_eq_some _ _ _ _).2 ⟨hs, ho⟩
    refine ⟨o ++ (attrs ++ (['>'] ++ (x :: (xs ++ (('<' :: c2) ++ []))))), ?_⟩
    simp only [matchAt, tagRe]
    rw [matchAtoms_lit, h1]
    simp only
    rw [matchAtoms_star, h2]

/-- A match of the descriptor pattern at the start of a text is an occurrence of the tag
there, with the captured text as content. -/
theorem tagAtHead_of_matchAt_tagRe (name s m g : Str)
    (h : matchAt (tagRe name) s = some (m, g)) : TagAtHead name s g := by
  simp only [matchAt, tagRe] at h
  rw [matchAtoms_lit] at h
  cases h1 : matchLit true ('<' :: name) s with
  | none => simp [h1] at h
  | some mr =>
    obtain ⟨o, r1⟩ := mr
    obtain ⟨hs, ho⟩ := (matchLit_ci_eq_some _ _ _ _).1 h1
    simp only [h1] at h
    cases h2 : matchAtoms true [Atom.star notGt, Atom.lit ['>'], Atom.capPlus notLt,
        Atom.lit ('<' :: '/' :: (name ++ ['>']))] r1 with
    | none => simp [h2] at h
    | some mg =>
      obtain ⟨m2, g2⟩ := mg
      simp only [h2, Option.some.injEq, Prod.mk.injEq] at h
      obtain ⟨-, rfl⟩ := h
      rw [matchAtoms_star] at h2
      obtain ⟨attrs, r2, m3, hr1, hattrs, h3, -⟩ := greedy_eq_some _ _ _ _ _ h2
      rw [matchAtoms_lit] at h3
      cases h4 : matchLit true ['>'] r2 with
      | none => simp [h4] at h3
      | some mr =>
        obtain ⟨gt, r3⟩ := mr
        obtain ⟨hr2, hgt⟩ := (matchLit_ci_eq_some _ _ _ _).1 h4
        obtain ⟨y, ys, rfl, hy, hys⟩ := (ciEq_cons_right _ _ _).1 hgt
        have hy2 : y = '>' := eq_of_toLower_eq y '>' (by decide) hy
        have hys2 : ys = [] := (ciEq_nil_right ys).1 hys
        subst hy2 hys2
        simp only [h4] at h3
        cases h5 : matchAtoms true [Atom.capPlus notLt,
            Atom.lit ('<' :: '/' :: (name ++ ['>']))] r3 with
        | none => simp [h5] at h3
        | some mg =>
          obtain ⟨m4, g4⟩ := mg
          simp only [h5, Option.some.injEq, Prod.mk.injEq] at h3
          obtain ⟨-, rfl⟩ := h3
          cases r3 with
          | nil => simp [matchAtoms_capPlus_nil] at h5
          | cons x xs =>
            rw [matchAtoms_capPlus] at h5
            by_cases hx : notLt x = true
            · simp only [hx, if_true] at h5
              cases h6 : greedyCap notLt
                  (matchAtoms true [Atom.lit ('<' :: '/' :: (name ++ ['>']))]) xs with
              | none => simp [h6] at h5
              | some mg =>
                obtain ⟨m5, g5⟩ := mg
                simp only [h6, Option.some.injEq, Prod.mk.injEq] at h5
                obtain ⟨-, rfl⟩ := h5
                obtain ⟨r4, m6, g6, hxs, hg5, h7, -⟩ := greedyCap_eq_some _ _ _ _ _ h6
                rw [matchAtoms_lit] at h7
                cases h8 : matchLit true ('<' :: '/' :: (name ++ ['>'])) r4 with
                | none => simp [h8] at h7
                | some mr =>
                  obtain ⟨c, post⟩ := mr
                  obtain ⟨hr4, hc⟩ := (matchLit_ci_eq_some _ _ _ _).1 h8
                  refine ⟨o, attrs, c, post, ?_, ho, ?_, by simp, ?_, hc⟩
                  · rw [hs, hr1, hr2, hxs, hr4]; simp
                  · intro z hz
                    have := hattrs z hz
                    simpa [notGt] using this
                  · intro z hz
                    rcases List.mem_cons.1 hz with rfl | hz
                    · simpa [notLt] using hx
                    · have := hg5 z hz
                      simpa [notLt] using this
            · simp [hx] at h5

/-- The leftmost-match search returns the match at the first position that has one. -/
theorem matchFirst_of_first (re : Regex) (pre s : Str) (r : Str × Str)
    (hs : matchAt re s = some r)
    (hpre : ∀ pre2 s2, pre ++ s = pre2 ++ s2 → pre2.length < pre.length →
      matchAt re s2 = none) :
    matchFirst re (pre ++ s) = some r := by
  induction pre with
  | nil =>
    cases s with
    | nil => simpa [matchFirst] using hs
    | cons c cs => simp [matchFirst, hs]
  | cons p ps ih =>
    have h0 : matchAt re (p :: (ps ++ s)) = none :=
      hpre [] (p :: (ps ++ s)) rfl (by simp)
    have h1 := ih (fun pre2 s2 h2 hlen =>
      hpre (p :: pre2) s2 (by simp [h2]) (by simpa using hlen))
    simp [matchFirst, h0, h1]

/-- The leftmost-match search fails when no position has a match. -/
theorem matchFirst_eq_none (re : Regex) (text : Str)
    (h : ∀ pre s, text = pre ++ s → matchAt re s = none) : matchFirst re text = none := by
  induction text with
  | nil => simpa [matchFirst] using h [] [] rfl
  | cons c cs ih =>
    have h0 : matchAt re (c :: cs) = none := h [] (c :: cs) rfl
    have h1 := ih (fun pre s hs => h (c :: pre) s (by simp [hs]))
    simp [matchFirst, h0, h1]

/-- A result of the leftmost-match search is a match at a position before which no
position has a match. -/
theorem matchFirst_eq_some (re : Regex) (text : Str) (r : Str × Str)
    (h : matchFirst re text = some r) :
    ∃ pre s, text = pre ++ s ∧ matchAt re s = some r ∧
      ∀ pre2 s2, text = pre2 ++ s2 → pre2.length < pre.length → matchAt re s2 = none := by
  induction text with
  | nil =>
    exact ⟨[], [], rfl, by simpa [matchFirst] using h, by simp⟩
  | cons c cs ih =>
    simp only [matchFirst] at h
    cases h0 : matchAt re (c :: cs) with
    | some r0 =>
      simp only [h0, Option.some.injEq] at h
      subst h
      exact ⟨[], c :: cs, rfl, h0, by simp⟩
    | none =>
      simp only [h0] at h
      obtain ⟨pre, s, h1, h2, h3⟩ := ih h
      refine ⟨c :: pre, s, by simp [h1], h2, ?_⟩
      intro pre2 s2 h4 hlen
      cases pre2 with
      | nil =>
        simp only [List.nil_append] at h4
        rw [← h4]; exact h0
      | cons p ps =>
        simp only [List.cons_append, List.cons.injEq] at h4
        exact h3 ps s2 h4.2 (by simpa using hlen)

/-- On a text with a first occurrence of the tag, the descriptor pattern captures the
content of that occurrence. -/
theorem matchFirst_tagRe_of_first (name text content : Str)
    (h : FirstTagContent name text content) :
    ∃ m, matchFirst (tagRe name) text = some (m, content) := by
  obtain ⟨pre, s, rfl, hs, hpre⟩ := h
  obtain ⟨m, hm⟩ := matchAt_tagRe_of_tagAtHead name s content hs
  refine ⟨m, matchFirst_of_first _ pre s _ hm ?_⟩
  intro pre2 s2 h2 hlen
  cases h3 : matchAt (tagRe name) s2 with
  | none => rfl
  | some r =>
    exact absurd (tagAtHead_of_matchAt_tagRe name s2 r.1 r.2 h3) (hpre pre2 s2 r.2 h2 hlen)

/-- On a text without occurrence of the tag the descriptor pattern has no match. -/
theorem matchFirst_tagRe_of_noTag (name text : Str) (h : NoTag name text) :
    matchFirst (tagRe name) text = none := by
  apply matchFirst_eq_none
  intro pre s hs
  cases h3 : matchAt (tagRe name) s with
  | none => rfl
  | some r => exact absurd (tagAtHead_of_matchAt_tagRe name s r.1 r.2 h3) (h pre s r.2 hs)

/-- What the descriptor pattern captures is the content of the first occurrence. -/
theorem firstTagContent_of_matchFirst (name text m g : Str)
    (h : matchFirst (tagRe name) text = some (m, g)) : FirstTagContent name text g := by
  obtain ⟨pre, s, h1, h2, h3⟩ := matchFirst_eq_some _ _ _ h
  refine ⟨pre, s, h1, tagAtHead_of_matchAt_tagRe name s m g h2, ?_⟩
  intro pre2 s2 c2 h4 hlen hocc
  obtain ⟨m2, hm2⟩ := matchAt_tagRe_of_tagAtHead name s2 c2 hocc
  rw [h3 pre2 s2 h4 hlen] at hm2
  cases hm2

/-- A failed leftmost-match search has no match at any position. -/
theorem matchAt_eq_none_of_matchFirst (re : Regex) (text : Str)
    (h : matchFirst re text = none) (pre s : Str) (hs : text = pre ++ s) :
    matchAt re s = none := by
  induction text generalizing pre with
  | nil =>
    have h1 : s = [] := by
      have := congrArg List.length hs
      simp only [List.length_nil, List.length_append] at this
      exact List.length_eq_zero.1 (by omega)
    subst h1
    simpa [matchFirst] using h
  | cons c cs ih =>
    simp only [matchFirst] at h
    cases h0 : matchAt re (c :: cs) with
    | some r0 => simp [h0] at h
    | none =>
      simp only [h0] at h
      cases pre with
      | nil =>
        simp only [List.nil_append] at hs
        rw [← hs]; exact h0
      | cons p ps =>
        simp only [List.cons_append, List.cons.injEq] at hs
        exact ih h ps hs.2

/-- When the pattern has no match, the text has no occurrence of the tag. -/
theorem noTag_of_matchFirst (name text : Str)
    (h : matchFirst (tagRe name) text = none) : NoTag name text := by
  intro pre s c hs hocc
  obtain ⟨m, hm⟩ := matchAt_tagRe_of_tagAtHead name s c hocc
  rw [matchAt_eq_none_of_matchFirst _ _ h pre s hs] at hm
  cases hm

theorem applyDescriptor_title (metadata : Metadata) (opfContent : Str) :
    (applyDescriptor metadata opfContent).title =
      match matchFirst (tagRe "dc:title".toList) opfContent with
      | some r => trim r.2
      | none => metadata.title := by
  unfold applyDescriptor
  cases matchFirst (tagRe "dc:title".toList) opfContent <;>
  cases matchFirst (tagRe "dc:creator".toList) opfContent <;>
  cases matchFirst (tagRe "dc:description".toList) opfContent <;>
  cases matchFirst (tagRe "dc:language".toList) opfContent <;> rfl

theorem applyDescriptor_author (metadata : Metadata) (opfContent : Str) :
    (applyDescriptor metadata opfContent).author =
      match matchFirst (tagRe "dc:creator".toList) opfContent with
      | some r => trim r.2
      | none => metadata.author := by
  unfold applyDescriptor
  cases matchFirst (tagRe "dc:title".toList) opfContent <;>
  cases matchFirst (tagRe "dc:creator".toList) opfContent <;>
  cases matchFirst (tagRe "dc:description".toList) opfContent <;>
  cases matchFirst (tagRe "dc:language".toList) opfContent <;> rfl

theorem applyDescriptor_description (metadata : Metadata) (opfContent : Str) :
    (applyDescriptor metadata opfContent).description =
      match matchFirst (tagRe "dc:description".toList) opfContent with
      | some r => trim r.2
      | none => metadata.description := by
  unfold applyDescriptor
  cases matchFirst (tagRe "dc:title".toList) opfContent <;>
  cases matchFirst (tagRe "dc:creator".toList) opfContent <;>
  cases matchFirst (tagRe "dc:description".toList) opfContent <;>
  cases matchFirst (tagRe "dc:language".toList) opfContent <;> rfl

theorem applyDescriptor_language (metadata : Metadata) (opfContent : Str) :
    (applyDescriptor metadata opfContent).language =
      match matchFirst (tagRe "dc:language".toList) opfContent with
      | some r => trim r.2
      | none => metadata.language := by
  unfold applyDescriptor
  cases matchFirst (tagRe "dc:title".toList) opfContent <;>
  cases matchFirst (tagRe "dc:creator".toList) opfContent <;>
  cases matchFirst (tagRe "dc:description".toList) opfContent <;>
  cases matchFirst (tagRe "dc:language".toList) opfContent <;> rfl

/-- With a readable descriptor the body of `parseEpub` does not throw; its metadata are
those of the descriptor step, but for the table of contents and the cover. -/
theorem parseBody_with_descriptor (filePath : Str) (entries : List Entry) (now : Nat)
    (writeOk : Bool) (opfEntry : Entry) (opfContent : Str)
    (hfind : entries.find? isOpf = some opfEntry) (hdata : opfEntry.data = some opfContent) :
    ∃ r, parseBody filePath (some entries) now writeOk = some r ∧
      r.metadata.title = (applyDescriptor (initialMetadata filePath now) opfContent).title ∧
      r.metadata.author = (applyDescriptor (initialMetadata filePath now) opfContent).author ∧
      r.metadata.description =
        (applyDescriptor (initialMetadata filePath now) opfContent).description ∧
      r.metadata.language =
        (applyDescriptor (initialMetadata filePath now) opfContent).language ∧
      r.metadata.tableOfContents =
        (if (navigationRows entries).length = 0 then defaultChapters entries
         else navigationRows entries) ∧
      r.totalChapters = r.metadata.tableOfContents.length := by
  simp [parseBody, hfind, hdata]

/-- Claim C8: when the descriptor entry is readable, each of the fields title
(`dc:title`), author (`dc:creator`), description (`dc:description`) and language
(`dc:language`) of the result of `parseEpub` is the trimmed content of the first
occurrence of its tag in the descriptor text, tags being read up to case, and is the
default of the field when the text has no occurrence of the tag. -/
theorem parseEpub_descriptor_fields (filePath : Str) (entries : List Entry) (now : Nat)
    (writeOk : Bool) (opfEntry : Entry) (opfContent : Str)
    (hfind : entries.find? isOpf = some opfEntry) (hdata : opfEntry.data = some opfContent) :
    (∀ content, FirstTagContent "dc:title".toList opfContent content →
      (parseEpub filePath (some entries) now writeOk).metadata.title = trim content) ∧
    (NoTag "dc:title".toList opfContent →
      (parseEpub filePath (some entries) now writeOk).metadata.title =
        extractTitleFromFilename filePath) ∧
    (∀ content, FirstTagContent "dc:creator".toList opfContent content →
      (parseEpub filePath (some entries) now writeOk).metadata.author = trim content) ∧
    (NoTag "dc:creator".toList opfContent →
      (parseEpub filePath (some entries) now writeOk).metadata.author =
        "Unknown Author".toList) ∧
    (∀ content, FirstTagContent "dc:description".toList opfContent content →
      (parseEpub filePath (some entries) now writeOk).metadata.description = trim content) ∧
    (NoTag "dc:description".toList opfContent →
      (parseEpub filePath (some entries) now writeOk).metadata.description =
        "EPUB book uploaded successfully.".toList) ∧
    (∀ content, FirstTagContent "dc:language".toList opfContent content →
      (parseEpub filePath (some entries) now writeOk).metadata.language = trim content) ∧
    (NoTag "dc:language".toList opfContent →
      (parseEpub filePath (some entries) now writeOk).metadata.language = "en".toList) := by
  obtain ⟨r, hr, ht, ha, hd, hl, -, -⟩ :=
    parseBody_with_descriptor filePath entries now writeOk opfEntry opfContent hfind hdata
  have hp : parseEpub filePath (some entries) now writeOk = r := by
    simp [parseEpub, hr]
  rw [hp, ht, ha, hd, hl, applyDescriptor_title, applyDescriptor_author,
    applyDescriptor_description, applyDescriptor_language]
  refine ⟨?_, ?_, ?_, ?_, ?_, ?_, ?_, ?_⟩
  · intro content h
    obtain ⟨m, hm⟩ := matchFirst_tagRe_of_first _ _ _ h
    rw [hm]
  · intro h
    rw [matchFirst_tagRe_of_noTag _ _ h]; rfl
  · intro content h
    obtain ⟨m, hm⟩ := matchFirst_tagRe_of_first _ _ _ h
    rw [hm]
  · intro h
    rw [matchFirst_tagRe_of_noTag _ _ h]; rfl
  · intro content h
    obtain ⟨m, hm⟩ := matchFirst_tagRe_of_first _ _ _ h
    rw [hm]
  · intro h
    rw [matchFirst_tagRe_of_noTag _ _ h]; rfl
  · intro content h
    obtain ⟨m, hm⟩ := matchFirst_tagRe_of_first _ _ _ h
    rw [hm]
  · intro h
    rw [matchFirst_tagRe_of_noTag _ _ h]; rfl

theorem parseEpub_descriptor_fields_witness :
    (parseEpub "/uploads/books/1-2-x.epub".toList
      (some [⟨"mimetype".toList, none⟩, ⟨"OEBPS/content.opf".toList, some sampleOpf⟩])
      0 true).metadata.title = "Moby Dick".toList ∧
    (parseEpub "/uploads/books/1-2-x.epub".toList
      (some [⟨"mimetype".toList, none⟩, ⟨"OEBPS/content.opf".toList, some sampleOpf⟩])
      0 true).metadata.author = "Herman Melville".toList ∧
    (parseEpub "/uploads/books/1-2-x.epub".toList
      (some [⟨"mimetype".toList, none⟩, ⟨"OEBPS/content.opf".toList, some sampleOpf⟩])
      0 true).metadata.language = "en".toList :=
  have h := parseEpub_descriptor_fields "/uploads/books/1-2-x.epub".toList
    [⟨"mimetype".toList, none⟩, ⟨"OEBPS/content.opf".toList, some sampleOpf⟩] 0 true
    ⟨"OEBPS/content.opf".toList, some sampleOpf⟩ sampleOpf (by decide) rfl
  ⟨h.1 "  Moby Dick\n".toList
      (firstTagContent_of_matchFirst _ _
        "<DC:Title id=\"t\">  Moby Dick\n</dc:title>".toList _ (by decide)),
    h.2.2.1 "Herman Melville".toList
      (firstTagContent_of_matchFirst _ _
        "<dc:creator>Herman Melville</dc:creator>".toList _ (by decide)),
    h.2.2.2.2.2.2.2 (noTag_of_matchFirst _ _ (by decide))⟩

theorem defaultRows_get? (i n j : Nat) (hj : j < n) :
    (defaultRows i n).get? j =
      some { title := "Chapter ".toList ++ (Nat.repr (i + j + 1)).toList, href := [],
             chapter := i + j + 1 } := by
  induction n generalizing i j with
  | zero => omega
  | succ n ih =>
    cases j with
    | zero =>
      simp only [defaultRows, List.get?_cons_zero, chapterTitle, numToStr]
      have h : ¬ ((i : Int) + 1 < 0) := by omega
      simp only [h, if_false]
      rfl
    | succ j =>
      simp only [defaultRows, List.get?_cons_succ]
      rw [ih (i + 1) j (by omega)]
      have : i + 1 + j + 1 = i + (j + 1) + 1 := by omega
      rw [this]

/-- Claim C9, as amended: for a container that opens, whose descriptor entry, if there
is one, is readable, for which the navigation step yields no row and which has `n ≥ 1`
markup entries, `parseEpub` returns `totalChapters = n` and a table of contents of `n`
rows, row `i` (from 1) having the title `Chapter i` and the chapter number `i`. -/
theorem parseEpub_default_chapters (filePath : Str) (entries : List Entry) (now : Nat)
    (writeOk : Bool) (n : Nat)
    (hdesc : ∀ opfEntry, entries.find? isOpf = some opfEntry → opfEntry.data ≠ none)
    (hnav : navigationRows entries = [])
    (hn : (entries.filter isHtml).length = n) (hpos : 1 ≤ n) :
    (parseEpub filePath (some entries) now writeOk).totalChapters = n ∧
    (parseEpub filePath (some entries) now writeOk).metadata.tableOfContents.length = n ∧
    ∀ i, i < n →
      (parseEpub filePath (some entries) now writeOk).metadata.tableOfContents.get? i =
        some { title := "Chapter ".toList ++ (Nat.repr (i + 1)).toList, href := [],
               chapter := i + 1 } := by
  have key : ∃ r, parseBody filePath (some entries) now writeOk = some r ∧
      r.metadata.tableOfContents =
        (if (navigationRows entries).length = 0 then defaultChapters entries
         else navigationRows entries) ∧
      r.totalChapters = r.metadata.tableOfContents.length := by
    cases hfind : entries.find? isOpf with
    | none =>
      obtain ⟨r, hr, -, -, -, -, h1, h2⟩ :=
        parseBody_without_descriptor filePath entries now writeOk hfind
      exact ⟨r, hr, h1, h2⟩
    | some opfEntry =>
      cases hdata : opfEntry.data with
      | none => exact absurd hdata (hdesc opfEntry hfind)
      | some opfContent =>
        obtain ⟨r, hr, -, -, -, -, h1, h2⟩ :=
          parseBody_with_descriptor filePath entries now writeOk opfEntry opfContent hfind hdata
        exact ⟨r, hr, h1, h2⟩
  obtain ⟨r, hr, h1, h2⟩ := key
  have hp : parseEpub filePath (some entries) now writeOk = r := by
    simp [parseEpub, hr]
  have htoc : r.metadata.tableOfContents = defaultRows 0 n := by
    rw [h1, hnav]
    simp only [List.length_nil, if_true, defaultChapters, hn]
    rw [max_eq_right hpos]
  rw [hp, h2, htoc, length_defaultRows]
  refine ⟨rfl, rfl, ?_⟩
  intro i hi
  rw [defaultRows_get? 0 n i hi]
  simp

theorem parseEpub_default_chapters_witness :
    (parseEpub "/uploads/books/5-1700000000000-7-sample.epub".toList
      (some scenarioEntries) 0 true).metadata.title = "Sample".toList ∧
    (parseEpub "/uploads/books/5-1700000000000-7-sample.epub".toList
      (some scenarioEntries) 0 true).metadata.author = "Jane Doe".toList ∧
    (parseEpub "/uploads/books/5-1700000000000-7-sample.epub".toList
      (some scenarioEntries) 0 true).totalChapters = 3 ∧
    (parseEpub "/uploads/books/5-1700000000000-7-sample.epub".toList
      (some scenarioEntries) 0 true).metadata.tableOfContents.length = 3 ∧
    ∀ i, i < 3 →
      (parseEpub "/uploads/books/5-1700000000000-7-sample.epub".toList
        (some scenarioEntries) 0 true).metadata.tableOfContents.get? i =
        some { title := "Chapter ".toList ++ (Nat.repr (i + 1)).toList, href := [],
               chapter := i + 1 } :=
  ⟨by decide, by decide,
    parseEpub_default_chapters "/uploads/books/5-1700000000000-7-sample.epub".toList
      scenarioEntries 0 true 3 (by decide) (by decide) (by decide) (by decide)⟩

/-- Claim C9 as stated fails: the container `unreadableOpfEntries` has no navigation
entry (so the navigation step yields no row) and two markup entries, but reading its
descriptor throws, and `parseEpub` returns the recovery result with one chapter. -/
theorem parseEpub_default_chapters_counterexample :
    unreadableOpfEntries.filter isNav = [] ∧
    navigationRows unreadableOpfEntries = [] ∧
    (unreadableOpfEntries.filter isHtml).length = 2 ∧
    (parseEpub "/uploads/books/5-1700000000000-7-sample.epub".toList
      (some unreadableOpfEntries) 0 true).totalChapters = 1 ∧
    (parseEpub "/uploads/books/5-1700000000000-7-sample.epub".toList
      (some unreadableOpfEntries) 0 true).metadata.tableOfContents =
      [{ title := "Chapter 1".toList, href := [], chapter := 1 }] := by
  decide

/-- Claim C10, as amended: for a container that opens, with no markup entry, no
descriptor entry and for which the navigation step yields no row, `parseEpub` returns
the title derived from the file name, `totalChapters = 1` and the table of contents
made of the single row `Chapter 1` with chapter number 1. -/
theorem parseEpub_empty_container (filePath : Str) (entries : List Entry) (now : Nat)
    (writeOk : Bool)
    (hhtml : entries.filter isHtml = [])
    (hdesc : entries.find? isOpf = none)
    (hnav : navigationRows entries = []) :
    (parseEpub filePath (some entries) now writeOk).metadata.title =
      extractTitleFromFilename filePath ∧
    (parseEpub filePath (some entries) now writeOk).totalChapters = 1 ∧
    (parseEpub filePath (some entries) now writeOk).metadata.tableOfContents =
      [{ title := "Chapter 1".toList, href := [], chapter := 1 }] := by
  obtain ⟨r, hr, ht, -, -, -, h1, h2⟩ :=
    parseBody_without_descriptor filePath entries now writeOk hdesc
  have hp : parseEpub filePath (some entries) now writeOk = r := by
    simp [parseEpub, hr]
  have htoc : r.metadata.tableOfContents =
      [{ title := "Chapter 1".toList, href := [], chapter := 1 }] := by
    rw [h1, hnav]
    simp only [List.length_nil, if_true, defaultChapters, hhtml]
    rfl
  rw [hp, h2, htoc, ht]
  exact ⟨rfl, rfl, rfl⟩

theorem parseEpub_empty_container_witness :
    (parseEpub "/uploads/books/5-1700000000000-7-my_first-book.epub".toList
      (some [⟨"mimetype".toList, some "application/epub+zip".toList⟩,
        ⟨"images/cover.png".toList, none⟩]) 0 true).metadata.title =
      extractTitleFromFilename "/uploads/books/5-1700000000000-7-my_first-book.epub".toList ∧
    (parseEpub "/uploads/books/5-1700000000000-7-my_first-book.epub".toList
      (some [⟨"mimetype".toList, some "application/epub+zip".toList⟩,
        ⟨"images/cover.png".toList, none⟩]) 0 true).totalChapters = 1 ∧
    (parseEpub "/uploads/books/5-1700000000000-7-my_first-book.epub".toList
      (some [⟨"mimetype".toList, some "application/epub+zip".toList⟩,
        ⟨"images/cover.png".toList, none⟩]) 0 true).metadata.tableOfContents =
      [{ title := "Chapter 1".toList, href := [], chapter := 1 }] :=
  parseEpub_empty_container _ _ 0 true (by decide) (by decide) (by decide)

/-- Claim C10 as stated fails: the container `ncxOnlyEntries` has no markup entry and no
descriptor entry, but its navigation document has two labels, and `parseEpub` returns
two chapters, titled by the labels. -/
theorem parseEpub_empty_container_counterexample :
    ncxOnlyEntries.filter isHtml = [] ∧
    ncxOnlyEntries.find? isOpf = none ∧
    (parseEpub "/uploads/books/5-1700000000000-7-my_first-book.epub".toList
      (some ncxOnlyEntries) 0 true).totalChapters = 2 ∧
    (parseEpub "/uploads/books/5-1700000000000-7-my_first-book.epub".toList
      (some ncxOnlyEntries) 0 true).metadata.tableOfContents =
      [{ title := "One".toList, href := [], chapter := 1 },
       { title := "Two".toList, href := [], chapter := 2 }] := by
  decide

/-! ## The order of chapters -/

theorem codePointCompare_total (a b : Str) :
    codePointCompare a b ≤ 0 ∨ codePointCompare b a ≤ 0 := by
  induction a generalizing b with
  | nil => cases b <;> simp [codePointCompare]
  | cons x xs ih =>
    cases b with
    | nil => simp [codePointCompare]
    | cons y ys =>
      simp only [codePointCompare]
      by_cases h1 : x.toNat < y.toNat
      · simp [h1]
      · by_cases h2 : y.toNat < x.toNat
        · simp [h2]
        · simp only [h1, h2, if_false]
          exact ih ys

theorem codePointCompare_antisymm (a b : Str) (h1 : codePointCompare a b ≤ 0)
    (h2 : codePointCompare b a ≤ 0) : a = b := by
  induction a generalizing b with
  | nil =>
    cases b with
    | nil => rfl
    | cons y ys => simp [codePointCompare] at h2
  | cons x xs ih =>
    cases b with
    | nil => simp [codePointCompare] at h1
    | cons y ys =>
      simp only [codePointCompare] at h1 h2
      by_cases h3 : x.toNat < y.toNat
      · have h4 : ¬ y.toNat < x.toNat := by omega
        simp [h3, h4] at h2
      · by_cases h4 : y.toNat < x.toNat
        · simp [h3, h4] at h1
        · simp only [h3, h4, if_false] at h1 h2
          have hxy : x = y := by
            have : x.toNat = y.toNat := by omega
            rw [← Char.ofNat_toNat x, ← Char.ofNat_toNat y, this]
          rw [hxy, ih ys h1 h2]

theorem codePointCompare_trans (a b c : Str) (h1 : codePointCompare a b ≤ 0)
    (h2 : codePointCompare b c ≤ 0) : codePointCompare a c ≤ 0 := by
  induction a generalizing b c with
  | nil => cases c <;> simp [codePointCompare]
  | cons x xs ih =>
    cases b with
    | nil => simp [codePointCompare] at h1
    | cons y ys =>
      cases c with
      | nil => simp [codePointCompare] at h2
      | cons z zs =>
        simp only [codePointCompare] at h1 h2 ⊢
        by_cases hxy : x.toNat < y.toNat
        · by_cases hyz : y.toNat < z.toNat
          · have : x.toNat < z.toNat := by omega
            simp [this]
          · by_cases hzy : z.toNat < y.toNat
            · simp [hyz, hzy] at h2
            · have : x.toNat < z.toNat := by omega
              simp [this]
        · by_cases hyx : y.toNat < x.toNat
          · simp [hxy, hyx] at h1
          · simp only [hxy, hyx, if_false] at h1
            by_cases hyz : y.toNat < z.toNat
            · have : x.toNat < z.toNat := by omega
              simp [this]
            · by_cases hzy : z.toNat < y.toNat
              · simp [hyz, hzy] at h2
              · simp only [hyz, hzy, if_false] at h2
                have h5 : ¬ x.toNat < z.toNat := by omega
                have h6 : ¬ z.toNat < x.toNat := by omega
                simp only [h5, h6, if_false]
                exact ih ys zs h1 h2

/-- The model of `localeCompare` is a total comparison. -/
theorem localeCompareModel_total (a b : Str) :
    localeCompareModel a b ≤ 0 ∨ localeCompareModel b a ≤ 0 :=
  codePointCompare_total (sortKey a) (sortKey b)

/-- The model of `localeCompare` is a transitive comparison. -/
theorem localeCompareModel_trans (a b c : Str) (h1 : localeCompareModel a b ≤ 0)
    (h2 : localeCompareModel b c ≤ 0) : localeCompareModel a c ≤ 0 :=
  codePointCompare_trans (sortKey a) (sortKey b) (sortKey c) h1 h2

/-- The markup entries in chapter order are a rearrangement of the markup entries. -/
theorem htmlEntries_perm (cmp : Str → Str → Int) (entries : List Entry) :
    (htmlEntries cmp entries).Perm (entries.filter isHtml) :=
  List.perm_insertionSort _ _

/-- Under a collation that is total and transitive the markup entries in chapter order
are in ascending order of name. -/
theorem htmlEntries_sorted (cmp : Str → Str → Int)
    (htotal : ∀ a b, cmp a b ≤ 0 ∨ cmp b a ≤ 0)
    (htrans : ∀ a b c, cmp a b ≤ 0 → cmp b c ≤ 0 → cmp a c ≤ 0)
    (entries : List Entry) :
    (htmlEntries cmp entries).Sorted (nameLe cmp) := by
  haveI : IsTotal Entry (fun a b => cmp a.entryName b.entryName ≤ 0) :=
    ⟨fun a b => htotal a.entryName b.entryName⟩
  haveI : IsTrans Entry (fun a b => cmp a.entryName b.entryName ≤ 0) :=
    ⟨fun a b c => htrans a.entryName b.entryName c.entryName⟩
  exact List.sorted_insertionSort _ _

/-- Two ascending rearrangements of each other are equal when the order is antisymmetric
on their members. -/
theorem eq_of_perm_of_sorted_on (r : Entry → Entry → Prop) (l1 l2 : List Entry)
    (hp : l1.Perm l2) (h1 : l1.Sorted r) (h2 : l2.Sorted r)
    (hanti : ∀ a ∈ l1, ∀ b ∈ l1, r a b → r b a → a = b) : l1 = l2 := by
  induction l1 generalizing l2 with
  | nil => exact (List.Perm.nil_eq hp)
  | cons a l1 ih =>
    cases l2 with
    | nil => exact absurd hp.eq_nil (List.cons_ne_nil _ _)
    | cons b l2 =>
      have hab : a = b := by
        have ha : a ∈ b :: l2 := hp.subset (List.mem_cons_self _ _)
        have hb : b ∈ a :: l1 := hp.symm.subset (List.mem_cons_self _ _)
        rcases List.mem_cons.1 ha with h | h
        · exact h
        · rcases List.mem_cons.1 hb with h' | h'
          · exact h'.symm
          · exact hanti a (List.mem_cons_self _ _) b hb
              (List.rel_of_sorted_cons h1 b h') (List.rel_of_sorted_cons h2 a h)
      subst hab
      have := ih l2 (List.Perm.cons_inv hp) h1.of_cons h2.of_cons
        (fun x hx y hy => hanti x (List.mem_cons_of_mem _ hx) y (List.mem_cons_of_mem _ hy))
      rw [this]

/-- Claim C4, as amended: chapter retrieval does not depend on the order of the listing
when `localeCompare` tells the names apart.  For a collation that is total and
transitive and in which no two different names of the container compare as equal, two
listings of the container that are rearrangements of each other, with entry names
pairwise distinct, give the same result (title, content and index) at every chapter
index. -/
theorem getChapterContent_perm (cmp : Str → Str → Int)
    (htotal : ∀ a b, cmp a b ≤ 0 ∨ cmp b a ≤ 0)
    (htrans : ∀ a b c, cmp a b ≤ 0 → cmp b c ≤ 0 → cmp a c ≤ 0)
    (listing1 listing2 : List Entry) (hperm : listing1.Perm listing2)
    (hnodup : (listing1.map Entry.entryName).Nodup)
    (hanti : ∀ a ∈ listing1, ∀ b ∈ listing1, cmp a.entryName b.entryName ≤ 0 →
      cmp b.entryName a.entryName ≤ 0 → a.entryName = b.entryName)
    (chapterIndex : Int) :
    getChapterContent cmp (some listing1) chapterIndex =
      getChapterContent cmp (some listing2) chapterIndex := by
  have hsame : htmlEntries cmp listing1 = htmlEntries cmp listing2 := by
    apply eq_of_perm_of_sorted_on (nameLe cmp)
    · exact (htmlEntries_perm cmp listing1).trans
        ((hperm.filter _).trans (htmlEntries_perm cmp listing2).symm)
    · exact htmlEntries_sorted cmp htotal htrans listing1
    · exact htmlEntries_sorted cmp htotal htrans listing2
    · intro a ha b hb hab hba
      have ha1 : a ∈ listing1 :=
        (List.mem_filter.1 ((htmlEntries_perm cmp listing1).subset ha)).1
      have hb1 : b ∈ listing1 :=
        (List.mem_filter.1 ((htmlEntries_perm cmp listing1).subset hb)).1
      exact List.inj_on_of_nodup_map hnodup ha1 hb1 (hanti a ha1 b hb1 hab hba)
  simp only [getChapterContent, chapterBody, hsame]

theorem getChapterContent_perm_witness :
    shuffledEntries.Perm reshuffledEntries ∧
    (shuffledEntries.map Entry.entryName).Nodup ∧
    getChapterContent localeCompareModel (some shuffledEntries) 0 =
      getChapterContent localeCompareModel (some reshuffledEntries) 0 :=
  ⟨by decide, by decide,
    getChapterContent_perm localeCompareModel localeCompareModel_total
      localeCompareModel_trans shuffledEntries reshuffledEntries (by decide) (by decide)
      (by decide) 0⟩

/-- Claim C4 as stated fails.  The two names of `composedFirstEntries` are different
texts, the two spellings of one name, and `localeCompare` compares them as equal; the
sort keeps such entries in the order of the listing, so the listing and its
rearrangement `decomposedFirstEntries` give different chapters at index 0. -/
theorem getChapterContent_perm_counterexample :
    composedFirstEntries.Perm decomposedFirstEntries ∧
    (composedFirstEntries.map Entry.entryName).Nodup ∧
    localeCompareModel "OEBPS/caf\u00e9.xhtml".toList "OEBPS/cafe\u0301.xhtml".toList = 0 ∧
    (getChapterContent localeCompareModel (some composedFirstEntries) 0).content =
      "<p>composed</p>".toList ∧
    (getChapterContent localeCompareModel (some decomposedFirstEntries) 0).content =
      "<p>decomposed</p>".toList ∧
    getChapterContent localeCompareModel (some composedFirstEntries) 0 ≠
      getChapterContent localeCompareModel (some decomposedFirstEntries) 0 := by
  decide

/-- Claim C3, as amended: the markup entries are put in ascending order of name under
`localeCompare` (a collation, total and transitive), whatever their positions in the
listing; index `i` selects the `i`-th of them, index 0 the one whose name is first in
that order; when the selected entry can be read the content returned is the clean-up of
its text, or the placeholder paragraph when the clean-up leaves nothing, and when it
cannot be read the content is the error paragraph. -/
theorem getChapterContent_selects_in_name_order (cmp : Str → Str → Int)
    (htotal : ∀ a b, cmp a b ≤ 0 ∨ cmp b a ≤ 0)
    (htrans : ∀ a b c, cmp a b ≤ 0 → cmp b c ≤ 0 → cmp a c ≤ 0)
    (entries : List Entry) :
    (htmlEntries cmp entries).Perm (entries.filter isHtml) ∧
    (htmlEntries cmp entries).Sorted (nameLe cmp) ∧
    (∀ i : Nat, i < (entries.filter isHtml).length →
      ∃ entry, (htmlEntries cmp entries).get? i = some entry ∧
        (i = 0 → ∀ other ∈ entries, isHtml other = true →
          cmp entry.entryName other.entryName ≤ 0) ∧
        (∀ content, entry.data = some content →
          getChapterContent cmp (some entries) i =
            { title := "Chapter ".toList ++ numToStr ((i : Int) + 1)
              content :=
                if sanitize content = [] then
                  "<p>Chapter content could not be loaded.</p>".toList
                else sanitize content
              chapterIndex := i }) ∧
        (entry.data = none →
          getChapterContent cmp (some entries) i =
            { title := "Chapter ".toList ++ numToStr ((i : Int) + 1)
              content := "<p>Error loading chapter content.</p>".toList
              chapterIndex := i })) := by
  have hsorted := htmlEntries_sorted cmp htotal htrans entries
  refine ⟨htmlEntries_perm cmp entries, hsorted, ?_⟩
  intro i hi
  have hlen : i < (htmlEntries cmp entries).length := by
    rw [length_htmlEntries]; exact hi
  obtain ⟨entry, hentry⟩ : ∃ entry, (htmlEntries cmp entries).get? i = some entry :=
    ⟨_, List.get?_eq_get hlen⟩
  have hat : entryAt (htmlEntries cmp entries) (i : Int) = some entry := by
    unfold entryAt
    simp only [Int.toNat_ofNat, Int.ofNat_nonneg, Nat.cast_nonneg, if_true]
    exact hentry
  refine ⟨entry, hentry, ?_, ?_, ?_⟩
  · intro hi0 other hmem hhtml
    subst hi0
    have hother : other ∈ htmlEntries cmp entries :=
      (htmlEntries_perm cmp entries).symm.subset (List.mem_filter.2 ⟨hmem, hhtml⟩)
    cases hl : htmlEntries cmp entries with
    | nil => rw [hl] at hother; cases hother
    | cons first rest =>
      rw [hl] at hsorted hother hentry
      simp only [List.get?_cons_zero, Option.some.injEq] at hentry
      subst hentry
      rcases List.mem_cons.1 hother with h | h
      · rw [h]
        rcases htotal first.entryName first.entryName with h2 | h2 <;> exact h2
      · exact List.rel_of_sorted_cons hsorted other h
  · intro content hdata
    simp only [getChapterContent, chapterBody, hat, hdata, chapterTitle]
  · intro hdata
    simp only [getChapterContent, chapterBody, hat, hdata, chapterTitle]

theorem getChapterContent_selects_in_name_order_witness :
    (htmlEntries localeCompareModel caseEntries).Perm (caseEntries.filter isHtml) ∧
    (htmlEntries localeCompareModel caseEntries).Sorted (nameLe localeCompareModel) ∧
    (∀ i : Nat, i < (caseEntries.filter isHtml).length →
      ∃ entry, (htmlEntries localeCompareModel caseEntries).get? i = some entry ∧
        (i = 0 → ∀ other ∈ caseEntries, isHtml other = true →
          localeCompareModel entry.entryName other.entryName ≤ 0) ∧
        (∀ content, entry.data = some content →
          getChapterContent localeCompareModel (some caseEntries) i =
            { title := "Chapter ".toList ++ numToStr ((i : Int) + 1)
              content :=
                if sanitize content = [] then
                  "<p>Chapter content could not be loaded.</p>".toList
                else sanitize content
              chapterIndex := i }) ∧
        (entry.data = none →
          getChapterContent localeCompareModel (some caseEntries) i =
            { title := "Chapter ".toList ++ numToStr ((i : Int) + 1)
              content := "<p>Error loading chapter content.</p>".toList
              chapterIndex := i })) :=
  getChapterContent_selects_in_name_order localeCompareModel localeCompareModel_total
    localeCompareModel_trans caseEntries

/-- Claim C3 as stated fails, in three ways.  In `caseEntries` the name that is first in
the lexicographic order of the characters is `OEBPS/B.xhtml`, but `localeCompare` puts
`OEBPS/a.xhtml` before it: index 0 returns the body of `OEBPS/a.xhtml`.  The only markup
entry of `unreadableChapterEntries` is selected by index 0 and cannot be read: the
content is the error paragraph.  The only markup entry of `headOnlyEntries` is selected
by index 0 and the clean-up of its text is the empty string: the content is the
placeholder paragraph. -/
theorem getChapterContent_selects_counterexample :
    codePointCompare "OEBPS/B.xhtml".toList "OEBPS/a.xhtml".toList < 0 ∧
    localeCompareModel "OEBPS/a.xhtml".toList "OEBPS/B.xhtml".toList < 0 ∧
    htmlEntries localeCompareModel caseEntries =
      [⟨"OEBPS/a.xhtml".toList, some "<p>lower</p>".toList⟩,
       ⟨"OEBPS/B.xhtml".toList, some "<p>upper</p>".toList⟩] ∧
    sanitize "<p>upper</p>".toList = "<p>upper</p>".toList ∧
    (getChapterContent localeCompareModel (some caseEntries) 0).content =
      "<p>lower</p>".toList ∧
    htmlEntries localeCompareModel unreadableChapterEntries =
      [⟨"OEBPS/ch1.xhtml".toList, none⟩] ∧
    (getChapterContent localeCompareModel (some unreadableChapterEntries) 0).content =
      "<p>Error loading chapter content.</p>".toList ∧
    htmlEntries localeCompareModel headOnlyEntries =
      [⟨"OEBPS/title.xhtml".toList, some "<head><title>Title page</title></head>".toList⟩] ∧
    sanitize "<head><title>Title page</title></head>".toList = [] ∧
    (getChapterContent localeCompareModel (some headOnlyEntries) 0).content =
      "<p>Chapter content could not be loaded.</p>".toList ∧
    (getChapterContent localeCompareModel (some headOnlyEntries) 0).content ≠
      sanitize "<head><title>Title page</title></head>".toList := by
  decide

/-- Claim C5, evaluated where the code departs from it: on a head section whose tag has
an attribute, the clean-up removes the title element and the meta tag and leaves the
two head tags in the content. -/
theorem sanitize_head_with_attribute :
    sanitize headWithAttribute = "<head lang=\"en\"></head><p>Hello</p>".toList ∧
    includes (sanitize headWithAttribute) "<head".toList = true ∧
    includes (sanitize headWithAttribute) "</head>".toList = true ∧
    sanitize "<head><title>Title page</title><meta charset=\"utf-8\"></head><p>Hello</p>".toList =
      "<p>Hello</p>".toList := by
  decide

/-- Claim C6 as stated fails: on `splitHead` a second run of the clean-up chain removes
what the first run left, and each of the six removal steps changes its own output on
some text. -/
theorem sanitize_idempotent_counterexample :
    sanitize splitHead = "<head></head><p>Hello</p>".toList ∧
    sanitize (sanitize splitHead) = "<p>Hello</p>".toList ∧
    sanitize (sanitize splitHead) ≠ sanitize splitHead ∧
    sanitizeStep stepXml (sanitizeStep stepXml "<?x<?xml?>ml?>".toList) ≠
      sanitizeStep stepXml "<?x<?xml?>ml?>".toList ∧
    sanitizeStep stepDoctype (sanitizeStep stepDoctype "<!DOC<!doctype html>TYPE html>".toList) ≠
      sanitizeStep stepDoctype "<!DOC<!doctype html>TYPE html>".toList ∧
    sanitizeStep stepHead (sanitizeStep stepHead "<he<head></head>ad></head>".toList) ≠
      sanitizeStep stepHead "<he<head></head>ad></head>".toList ∧
    sanitizeStep stepTitle (sanitizeStep stepTitle "<ti<title></title>tle></title>".toList) ≠
      sanitizeStep stepTitle "<ti<title></title>tle></title>".toList ∧
    sanitizeStep stepMeta (sanitizeStep stepMeta "<me<meta>ta>".toList) ≠
      sanitizeStep stepMeta "<me<meta>ta>".toList ∧
    sanitizeStep stepLink (sanitizeStep stepLink "<li<link>nk>".toList) ≠
      sanitizeStep stepLink "<li<link>nk>".toList := by
  decide

/-! ## The replacement of all matches -/

theorem replaceAllAux_skip (re : Regex) (rep : Str) (u r : Str) :
    replaceAllAux re rep u.length (u ++ r) = replaceAllAux re rep 0 r := by
  induction u with
  | nil => rfl
  | cons d u ih =>
    simp only [List.length_cons, List.cons_append, replaceAllAux]
    exact ih

/-- Where the pattern has no match, the character is kept and the scan goes on. -/
theorem replaceAll_cons_of_none (re : Regex) (rep : Str) (c : Char) (cs : Str)
    (h : matchAt re (c :: cs) = none) :
    replaceAll re rep (c :: cs) = c :: replaceAll re rep cs := by
  simp only [replaceAll, replaceAllAux, h]

/-- Where the pattern has a non-empty match, the match is replaced and the scan resumes
after it. -/
theorem replaceAll_of_some (re : Regex) (rep : Str) (d : Char) (m g r : Str)
    (h : matchAt re (d :: (m ++ r)) = some (d :: m, g)) :
    replaceAll re rep (d :: (m ++ r)) = rep ++ replaceAll re rep r := by
  simp only [replaceAll, replaceAllAux, h]
  rw [replaceAllAux_skip]

theorem replaceAll_nil (re : Regex) (rep : Str) (hre : Productive re) :
    replaceAll re rep [] = [] := by
  cases h : matchAt re [] with
  | none => simp [replaceAll, replaceAllAux, h]
  | some mg =>
    obtain ⟨m, g⟩ := mg
    obtain ⟨d, m2, r, hm, hs⟩ := hre [] m g h
    rw [hm] at hs
    simp at hs

/-- A character of the output that is not the first character of the replacement text
was copied from the input, at a place without match. -/
theorem replaceAll_eq_cons (re : Regex) (e : Char) (rep : Str) (hre : Productive re)
    (x : Str) (d : Char) (y : Str) (h : replaceAll re (e :: rep) x = d :: y) (hd : d ≠ e) :
    ∃ x2, x = d :: x2 ∧ replaceAll re (e :: rep) x2 = y := by
  cases x with
  | nil => rw [replaceAll_nil re _ hre] at h; cases h
  | cons c cs =>
    cases hm : matchAt re (c :: cs) with
    | none =>
      rw [replaceAll_cons_of_none re _ c cs hm] at h
      simp only [List.cons.injEq] at h
      exact ⟨cs, by rw [h.1], h.2⟩
    | some mg =>
      obtain ⟨m, g⟩ := mg
      obtain ⟨d2, m2, r, hm2, hs⟩ := hre _ m g hm
      subst hm2
      rw [hs, List.cons_append] at hm h
      rw [replaceAll_of_some re _ d2 m2 g r hm] at h
      simp only [List.cons_append, List.cons.injEq] at h
      exact absurd h.1.symm hd

/-- A beginning of the output without the first character of the replacement text was
copied from the input. -/
theorem replaceAll_eq_append (re : Regex) (e : Char) (rep : Str) (hre : Productive re)
    (u x y : Str) (h : replaceAll re (e :: rep) x = u ++ y) (hu : ∀ d ∈ u, d ≠ e) :
    ∃ x2, x = u ++ x2 ∧ replaceAll re (e :: rep) x2 = y := by
  induction u generalizing x with
  | nil => exact ⟨x, rfl, h⟩
  | cons d u ih =>
    obtain ⟨x1, hx1, h1⟩ := replaceAll_eq_cons re e rep hre x d (u ++ y) h
      (hu d (List.mem_cons_self _ _))
    obtain ⟨x2, hx2, h2⟩ := ih x1 h1 (fun d2 hd2 => hu d2 (List.mem_cons_of_mem _ hd2))
    exact ⟨x2, by rw [hx1, hx2]; rfl, h2⟩

/-- A replacement is idempotent when the pattern is productive, no match begins inside
the replacement text, and a place without match stays without match when the text after
it is replaced. -/
theorem replaceAll_idempotent (re : Regex) (rep : Str) (hre : Productive re)
    (hrep : ∀ t, replaceAll re rep (rep ++ t) = rep ++ replaceAll re rep t)
    (hkeep : ∀ c cs, matchAt re (c :: cs) = none →
      matchAt re (c :: replaceAll re rep cs) = none)
    (s : Str) : replaceAll re rep (replaceAll re rep s) = replaceAll re rep s := by
  suffices hall : ∀ n (s : Str), s.length = n →
      replaceAll re rep (replaceAll re rep s) = replaceAll re rep s from hall _ s rfl
  intro n
  induction n using Nat.strong_induction_on with
  | _ n ih =>
    intro s hn
    cases s with
    | nil => rw [replaceAll_nil re rep hre, replaceAll_nil re rep hre]
    | cons c cs =>
      cases hm : matchAt re (c :: cs) with
      | none =>
        rw [replaceAll_cons_of_none re rep c cs hm,
          replaceAll_cons_of_none re rep c _ (hkeep c cs hm),
          ih cs.length (by rw [← hn]; simp) cs rfl]
      | some mg =>
        obtain ⟨m, g⟩ := mg
        obtain ⟨d2, m2, r, hm2, hs⟩ := hre _ m g hm
        subst hm2
        rw [hs, List.cons_append] at hm
        rw [hs, List.cons_append, replaceAll_of_some re rep d2 m2 g r hm, hrep,
          ih r.length (by rw [← hn, hs]; simp; omega) r rfl]

/-! ## The two replacements of the root tag -/

theorem exists_first_gt (t : Str) (h : '>' ∈ t) :
    ∃ a t2, t = a ++ '>' :: t2 ∧ ∀ x ∈ a, x ≠ '>' := by
  induction t with
  | nil => cases h
  | cons c cs ih =>
    by_cases hc : c = '>'
    · exact ⟨[], cs, by simp [hc], by simp⟩
    · rcases List.mem_cons.1 h with h1 | h1
      · exact absurd h1.symm hc
      · obtain ⟨a, t2, h2, h3⟩ := ih h1
        refine ⟨c :: a, t2, by simp [h2], ?_⟩
        intro x hx
        rcases List.mem_cons.1 hx with rfl | hx
        · exact hc
        · exact h3 x hx

theorem ne_of_ciEq (u l : Str) (e : Char) (h : CiEq u l)
    (hl : ∀ x ∈ l, x.toLower ≠ e.toLower) : ∀ d ∈ u, d ≠ e := by
  intro d hd hde
  have h1 : d.toLower ∈ u.map Char.toLower := List.mem_map_of_mem _ hd
  rw [h] at h1
  obtain ⟨x, hx, hxd⟩ := List.mem_map.1 h1
  exact hl x hx (by rw [hxd, hde])

/-- A match of a pattern `<L[^>]*>` with the `i` flag: the literal up to case, then
characters other than `>`, then `>`. -/
theorem matchAt_tag_eq_some (l s m g : Str)
    (h : matchAt (tagPattern l) s = some (m, g)) :
    ∃ o a t, s = o ++ (a ++ '>' :: t) ∧ CiEq o l ∧ m = o ++ (a ++ ['>']) := by
  simp only [matchAt, tagPattern] at h
  rw [matchAtoms_lit] at h
  cases h1 : matchLit true l s with
  | none => simp [h1] at h
  | some mr =>
    obtain ⟨o, r1⟩ := mr
    obtain ⟨hs, ho⟩ := (matchLit_ci_eq_some _ _ _ _).1 h1
    simp only [h1] at h
    cases h2 : matchAtoms true [Atom.star notGt, Atom.lit ['>']] r1 with
    | none => simp [h2] at h
    | some mg =>
      obtain ⟨m2, g2⟩ := mg
      simp only [h2, Option.some.injEq, Prod.mk.injEq] at h
      rw [matchAtoms_star] at h2
      obtain ⟨a, rest, m3, hr1, -, h3, hm2⟩ := greedy_eq_some _ _ _ _ _ h2
      rw [matchAtoms_lit] at h3
      cases h4 : matchLit true ['>'] rest with
      | none => simp [h4] at h3
      | some mr =>
        obtain ⟨gt, r3⟩ := mr
        obtain ⟨hrest, hgt⟩ := (matchLit_ci_eq_some _ _ _ _).1 h4
        obtain ⟨y, ys, rfl, hy, hys⟩ := (ciEq_cons_right _ _ _).1 hgt
        have hy2 : y = '>' := eq_of_toLower_eq y '>' (by decide) hy
        have hys2 : ys = [] := (ciEq_nil_right ys).1 hys
        subst hy2 hys2
        simp only [h4, matchAtoms_nil, Option.some.injEq, Prod.mk.injEq] at h3
        refine ⟨o, a, r3, ?_, ho, ?_⟩
        · rw [hs, hr1, hrest]; rfl
        · rw [← h.1, hm2, ← h3.1]; rfl

/-- A text that starts with the literal up to case and has a `>` further on has a match
of the pattern `<L[^>]*>`. -/
theorem matchAt_tag_ne_none (l o t : Str) (ho : CiEq o l) (ht : '>' ∈ t) :
    matchAt (tagPattern l) (o ++ t) ≠ none := by
  obtain ⟨a, t2, rfl, ha⟩ := exists_first_gt t ht
  have h3 : matchAtoms true [Atom.lit ['>']] ('>' :: t2) = some (['>'] ++ [], []) := by
    have hl : matchLit true ['>'] ('>' :: t2) = some (['>'], t2) := by
      simp [matchLit, chEq]
    rw [matchAtoms_lit, hl]
    simp only [matchAtoms_nil]
  have h2 := greedy_append notGt (matchAtoms true [Atom.lit ['>']]) a ('>' :: t2) _ _
    (fun y hy => by
      have := ha y hy
      simp [notGt, this])
    (fun d ds hds => by
      simp only [List.cons.injEq] at hds
      rw [← hds.1]; rfl)
    h3
  have h1 : matchLit true l (o ++ (a ++ '>' :: t2)) = some (o, a ++ '>' :: t2) :=
    (matchLit_ci_eq_some _ _ _ _).2 ⟨rfl, ho⟩
  simp only [matchAt, tagPattern]
  rw [matchAtoms_lit, h1]
  simp only
  rw [matchAtoms_star, h2]
  simp

theorem productive_tag (l0 : Char) (l : Str) :
    Productive (tagPattern (l0 :: l)) := by
  intro s m g h
  obtain ⟨o, a, t, hs, ho, hm⟩ := matchAt_tag_eq_some _ s m g h
  obtain ⟨o0, u, rfl, -, -⟩ := (ciEq_cons_right _ _ _).1 ho
  exact ⟨o0, u ++ (a ++ ['>']), t, by rw [hm]; rfl, by rw [hs, hm]; simp⟩

/-- A text without `>` is left as it is by the replacement of a pattern `<L[^>]*>`. -/
theorem replaceAll_tag_of_no_gt (l0 : Char) (l rep x : Str) (hx : ∀ c ∈ x, c ≠ '>') :
    replaceAll (tagPattern (l0 :: l)) rep x = x := by
  induction x with
  | nil => exact replaceAll_nil _ _ (productive_tag l0 l)
  | cons c cs ih =>
    have hnone : matchAt (tagPattern (l0 :: l)) (c :: cs) = none := by
      cases hm : matchAt (tagPattern (l0 :: l)) (c :: cs) with
      | none => rfl
      | some mg =>
        obtain ⟨o, a, t, hs, -, -⟩ := matchAt_tag_eq_some _ _ mg.1 mg.2 hm
        have : '>' ∈ c :: cs := by rw [hs]; simp
        exact absurd rfl (hx '>' this)
    rw [replaceAll_cons_of_none _ _ c cs hnone,
      ih (fun d hd => hx d (List.mem_cons_of_mem _ hd))]

/-- Replacing the text after a place without match of `<L[^>]*>` by a text that starts
with `<` does not create a match at that place. -/
theorem matchAt_tag_replaceAll (l rep : Str) (hl : ∀ x ∈ l, x.toLower ≠ '<'.toLower)
    (c : Char) (cs : Str)
    (h : matchAt (tagPattern ('<' :: l)) (c :: cs) = none) :
    matchAt (tagPattern ('<' :: l))
      (c :: replaceAll (tagPattern ('<' :: l)) ('<' :: rep) cs) = none := by
  cases hm : matchAt (tagPattern ('<' :: l))
      (c :: replaceAll (tagPattern ('<' :: l)) ('<' :: rep) cs) with
  | none => rfl
  | some mg =>
    exfalso
    obtain ⟨o, a, t, hs, ho, -⟩ := matchAt_tag_eq_some _ _ mg.1 mg.2 hm
    obtain ⟨o0, u, rfl, ho0, hu⟩ := (ciEq_cons_right _ _ _).1 ho
    simp only [List.cons_append, List.cons.injEq] at hs
    obtain ⟨hc, hR⟩ := hs
    obtain ⟨x2, hx2, hR2⟩ := replaceAll_eq_append _ '<' rep (productive_tag '<' l) u cs _ hR
      (ne_of_ciEq u l '<' hu hl)
    have hgt : '>' ∈ x2 := by
      by_contra hno
      have := replaceAll_tag_of_no_gt '<' l ('<' :: rep) x2
        (fun d hd hd2 => hno (hd2 ▸ hd))
      rw [this] at hR2
      rw [hR2] at hno
      simp at hno
    have := matchAt_tag_ne_none ('<' :: l) (o0 :: u) x2 ho hgt
    rw [hc, hx2] at h
    exact this h

/-- No match of `<html[^>]*>` begins inside the replacement text `<div>`. -/
theorem replaceAll_htmlOpen_div (rep t : Str) :
    replaceAll (tagPattern "<html".toList) rep ('<' :: 'd' :: 'i' :: 'v' :: '>' :: t) =
      '<' :: 'd' :: 'i' :: 'v' :: '>' :: replaceAll (tagPattern "<html".toList) rep t := by
  have h1 : matchAt (tagPattern "<html".toList) ('<' :: 'd' :: 'i' :: 'v' :: '>' :: t) =
      none := rfl
  have h2 : matchAt (tagPattern "<html".toList) ('d' :: 'i' :: 'v' :: '>' :: t) = none := rfl
  have h3 : matchAt (tagPattern "<html".toList) ('i' :: 'v' :: '>' :: t) = none := rfl
  have h4 : matchAt (tagPattern "<html".toList) ('v' :: '>' :: t) = none := rfl
  have h5 : matchAt (tagPattern "<html".toList) ('>' :: t) = none := rfl
  rw [replaceAll_cons_of_none _ _ _ _ h1, replaceAll_cons_of_none _ _ _ _ h2,
    replaceAll_cons_of_none _ _ _ _ h3, replaceAll_cons_of_none _ _ _ _ h4,
    replaceAll_cons_of_none _ _ _ _ h5]

/-- The replacement of the opening root tag is idempotent. -/
theorem stepHtmlOpen_idempotent (s : Str) :
    sanitizeStep stepHtmlOpen (sanitizeStep stepHtmlOpen s) = sanitizeStep stepHtmlOpen s := by
  have hre : stepHtmlOpen.1 = tagPattern ('<' :: "html".toList) := rfl
  have hrep : stepHtmlOpen.2 = '<' :: "div>".toList := rfl
  simp only [sanitizeStep, hre, hrep]
  apply replaceAll_idempotent
  · exact productive_tag '<' _
  · intro t
    exact replaceAll_htmlOpen_div _ t
  · intro c cs h
    exact matchAt_tag_replaceAll "html".toList "div>".toList (by decide) c cs h

/-- A match of a pattern made of one literal with the `i` flag is the literal up to
case. -/
theorem matchAt_lit_eq_some (l s m g : Str) (h : matchAt (litPattern l) s = some (m, g)) :
    ∃ t, s = m ++ t ∧ CiEq m l := by
  simp only [matchAt, litPattern] at h
  rw [matchAtoms_lit] at h
  cases h1 : matchLit true l s with
  | none => simp [h1] at h
  | some mr =>
    obtain ⟨o, r1⟩ := mr
    obtain ⟨hs, ho⟩ := (matchLit_ci_eq_some _ _ _ _).1 h1
    simp only [h1, matchAtoms_nil, Option.some.injEq, Prod.mk.injEq, List.append_nil] at h
    exact ⟨r1, by rw [← h.1]; exact hs, by rw [← h.1]; exact ho⟩

theorem matchAt_lit_ne_none (l o t : Str) (ho : CiEq o l) :
    matchAt (litPattern l) (o ++ t) ≠ none := by
  have h1 : matchLit true l (o ++ t) = some (o, t) :=
    (matchLit_ci_eq_some _ _ _ _).2 ⟨rfl, ho⟩
  simp only [matchAt, litPattern]
  rw [matchAtoms_lit, h1]
  simp [matchAtoms_nil]

theorem productive_lit (l0 : Char) (l : Str) : Productive (litPattern (l0 :: l)) := by
  intro s m g h
  obtain ⟨t, hs, hm⟩ := matchAt_lit_eq_some _ s m g h
  obtain ⟨o0, u, rfl, -, -⟩ := (ciEq_cons_right _ _ _).1 hm
  exact ⟨o0, u, t, rfl, hs⟩

/-- Replacing the text after a place without match of a literal that has `<` as first
character only, by a text that starts with `<`, does not create a match at that place. -/
theorem matchAt_lit_replaceAll (l rep : Str) (hl : ∀ x ∈ l, x.toLower ≠ '<'.toLower)
    (c : Char) (cs : Str) (h : matchAt (litPattern ('<' :: l)) (c :: cs) = none) :
    matchAt (litPattern ('<' :: l))
      (c :: replaceAll (litPattern ('<' :: l)) ('<' :: rep) cs) = none := by
  cases hm : matchAt (litPattern ('<' :: l))
      (c :: replaceAll (litPattern ('<' :: l)) ('<' :: rep) cs) with
  | none => rfl
  | some mg =>
    exfalso
    obtain ⟨t, hs, ho⟩ := matchAt_lit_eq_some _ _ mg.1 mg.2 hm
    obtain ⟨o0, u, hmg, ho0, hu⟩ := (ciEq_cons_right _ _ _).1 ho
    rw [hmg] at hs ho
    simp only [List.cons_append, List.cons.injEq] at hs
    obtain ⟨hc, hR⟩ := hs
    obtain ⟨x2, hx2, -⟩ := replaceAll_eq_append _ '<' rep (productive_lit '<' l) u cs _ hR
      (ne_of_ciEq u l '<' hu hl)
    have := matchAt_lit_ne_none ('<' :: l) (o0 :: u) x2 ho
    rw [hc, hx2] at h
    exact this h

/-- No match of `</html>` begins inside the replacement text `</div>`. -/
theorem replaceAll_htmlClose_div (rep t : Str) :
    replaceAll (litPattern "</html>".toList) rep ('<' :: '/' :: 'd' :: 'i' :: 'v' :: '>' :: t) =
      '<' :: '/' :: 'd' :: 'i' :: 'v' :: '>' ::
        replaceAll (litPattern "</html>".toList) rep t := by
  have h1 : matchAt (litPattern "</html>".toList)
      ('<' :: '/' :: 'd' :: 'i' :: 'v' :: '>' :: t) = none := rfl
  have h2 : matchAt (litPattern "</html>".toList) ('/' :: 'd' :: 'i' :: 'v' :: '>' :: t) =
      none := rfl
  have h3 : matchAt (litPattern "</html>".toList) ('d' :: 'i' :: 'v' :: '>' :: t) = none := rfl
  have h4 : matchAt (litPattern "</html>".toList) ('i' :: 'v' :: '>' :: t) = none := rfl
  have h5 : matchAt (litPattern "</html>".toList) ('v' :: '>' :: t) = none := rfl
  have h6 : matchAt (litPattern "</html>".toList) ('>' :: t) = none := rfl
  rw [replaceAll_cons_of_none _ _ _ _ h1, replaceAll_cons_of_none _ _ _ _ h2,
    replaceAll_cons_of_none _ _ _ _ h3, replaceAll_cons_of_none _ _ _ _ h4,
    replaceAll_cons_of_none _ _ _ _ h5, replaceAll_cons_of_none _ _ _ _ h6]

/-- The replacement of the closing root tag is idempotent. -/
theorem stepHtmlClose_idempotent (s : Str) :
    sanitizeStep stepHtmlClose (sanitizeStep stepHtmlClose s) =
      sanitizeStep stepHtmlClose s := by
  have hre : stepHtmlClose.1 = litPattern ('<' :: "/html>".toList) := rfl
  have hrep : stepHtmlClose.2 = '<' :: "/div>".toList := rfl
  simp only [sanitizeStep, hre, hrep]
  apply replaceAll_idempotent
  · exact productive_lit '<' _
  · intro t
    exact replaceAll_htmlClose_div _ t
  · intro c cs h
    exact matchAt_lit_replaceAll "/html>".toList "/div>".toList (by decide) c cs h

/-- Claim C6, as amended: the two steps of the clean-up chain that replace the root
tag, `<html ...>` by `<div>` and `</html>` by `</div>`, are idempotent: applied to its
own output, each of them returns that output, for every text. -/
theorem sanitize_html_steps_idempotent (s : Str) :
    sanitizeStep stepHtmlOpen (sanitizeStep stepHtmlOpen s) = sanitizeStep stepHtmlOpen s ∧
    sanitizeStep stepHtmlClose (sanitizeStep stepHtmlClose s) =
      sanitizeStep stepHtmlClose s :=
  ⟨stepHtmlOpen_idempotent s, stepHtmlClose_idempotent s⟩

/-! ## The steps of `parseEpub` -/

/-- The body of `parseEpub` is the descriptor step followed by the navigation, default
chapter and cover steps, which do not throw. -/
theorem parseBody_eq (filePath : Str) (entries : List Entry) (now : Nat) (writeOk : Bool) :
    parseBody filePath (some entries) now writeOk =
      match descriptorStep filePath entries now with
      | none => none
      | some metadata =>
        some
          { metadata :=
              { metadata with
                tableOfContents :=
                  if (navigationRows entries).length = 0 then defaultChapters entries
                  else navigationRows entries
                coverImage := coverImage filePath entries writeOk }
            totalChapters :=
              (if (navigationRows entries).length = 0 then defaultChapters entries
               else navigationRows entries).length } := by
  cases hfind : entries.find? isOpf with
  | none => simp only [parseBody, descriptorStep, hfind]
  | some opfEntry =>
    cases hdata : opfEntry.data with
    | none => simp only [parseBody, descriptorStep, hfind, hdata]
    | some opfContent => simp only [parseBody, descriptorStep, hfind, hdata]

/-- When the descriptor step does not throw, `parseEpub` returns its metadata with the
table of contents and the cover laid over them. -/
theorem parseEpub_of_descriptorStep (filePath : Str) (entries : List Entry) (now : Nat)
    (writeOk : Bool) (metadata : Metadata)
    (h : descriptorStep filePath entries now = some metadata) :
    parseBody filePath (some entries) now writeOk =
      some (parseEpub filePath (some entries) now writeOk) ∧
    parseEpub filePath (some entries) now writeOk =
      { metadata :=
          { metadata with
            tableOfContents :=
              if (navigationRows entries).length = 0 then defaultChapters entries
              else navigationRows entries
            coverImage := coverImage filePath entries writeOk }
        totalChapters :=
          (if (navigationRows entries).length = 0 then defaultChapters entries
           else navigationRows entries).length } := by
  have hb := parseBody_eq filePath entries now writeOk
  rw [h] at hb
  simp only at hb
  constructor
  · simp only [parseEpub, hb]
  · simp only [parseEpub, hb]

/-- When the descriptor step throws, `parseEpub` returns the recovery result. -/
theorem parseEpub_of_descriptorStep_none (filePath : Str) (entries : List Entry) (now : Nat)
    (writeOk : Bool) (h : descriptorStep filePath entries now = none) :
    parseEpub filePath (some entries) now writeOk = fallbackResult filePath now := by
  have hb := parseBody_eq filePath entries now writeOk
  rw [h] at hb
  simp only [parseEpub, hb]

theorem isOpf_iff_isDescriptorName (entry : Entry) :
    isOpf entry = true ↔ IsDescriptorName entry.entryName :=
  isOpf_iff entry

/-- The entry selected by `entries.find` is the first descriptor candidate of the
listing. -/
theorem find?_isOpf_of_first (pre : List Entry) (opfEntry : Entry) (post : List Entry)
    (hpre : ∀ e ∈ pre, ¬ IsDescriptorName e.entryName)
    (hopf : IsDescriptorName opfEntry.entryName) :
    (pre ++ opfEntry :: post).find? isOpf = some opfEntry := by
  rw [List.find?_eq_some]
  refine ⟨(isOpf_iff_isDescriptorName _).2 hopf, pre, post, rfl, ?_⟩
  intro a ha
  have := hpre a ha
  rw [← isOpf_iff_isDescriptorName] at this
  simpa using this

/-! ## Descriptor selection, open failure, read failures -/

theorem descriptorStep_of_first (filePath : Str) (now : Nat) (pre : List Entry)
    (opfEntry : Entry) (post : List Entry) (opfContent : Str)
    (hpre : ∀ e ∈ pre, ¬ IsDescriptorName e.entryName)
    (hopf : IsDescriptorName opfEntry.entryName) (hdata : opfEntry.data = some opfContent) :
    descriptorStep filePath (pre ++ opfEntry :: post) now =
      some (applyDescriptor (initialMetadata filePath now) opfContent) := by
  simp only [descriptorStep, find?_isOpf_of_first pre opfEntry post hpre hopf, hdata]

theorem descriptorStep_of_none (filePath : Str) (now : Nat) (entries : List Entry)
    (h : ∀ e ∈ entries, ¬ IsDescriptorName e.entryName) :
    descriptorStep filePath entries now = some (initialMetadata filePath now) := by
  have hfind : entries.find? isOpf = none := by
    rw [List.find?_eq_none]
    intro e he hopf
    exact h e he ((isOpf_iff_isDescriptorName e).1 hopf)
  simp only [descriptorStep, hfind]

/-- Claim C11, as amended: the descriptor read by `parseEpub` is the first entry, in
listing order, whose name ends in `.opf` or contains `content.opf`, with no preference
among candidates: when that entry is readable the title, author, description and
language are those extracted from its text; when no entry qualifies no field is
extracted (the fields keep their defaults) and no error is raised. -/
theorem parseEpub_descriptor_first_candidate (filePath : Str) (entries : List Entry)
    (now : Nat) (writeOk : Bool) :
    (∀ pre opfEntry post opfContent, entries = pre ++ opfEntry :: post →
      (∀ e ∈ pre, ¬ IsDescriptorName e.entryName) →
      IsDescriptorName opfEntry.entryName → opfEntry.data = some opfContent →
      parseBody filePath (some entries) now writeOk =
        some (parseEpub filePath (some entries) now writeOk) ∧
      (parseEpub filePath (some entries) now writeOk).metadata.title =
        (applyDescriptor (initialMetadata filePath now) opfContent).title ∧
      (parseEpub filePath (some entries) now writeOk).metadata.author =
        (applyDescriptor (initialMetadata filePath now) opfContent).author ∧
      (parseEpub filePath (some entries) now writeOk).metadata.description =
        (applyDescriptor (initialMetadata filePath now) opfContent).description ∧
      (parseEpub filePath (some entries) now writeOk).metadata.language =
        (applyDescriptor (initialMetadata filePath now) opfContent).language) ∧
    ((∀ e ∈ entries, ¬ IsDescriptorName e.entryName) →
      parseBody filePath (some entries) now writeOk =
        some (parseEpub filePath (some entries) now writeOk) ∧
      (parseEpub filePath (some entries) now writeOk).metadata.title =
        extractTitleFromFilename filePath ∧
      (parseEpub filePath (some entries) now writeOk).metadata.author =
        "Unknown Author".toList ∧
      (parseEpub filePath (some entries) now writeOk).metadata.description =
        "EPUB book uploaded successfully.".toList ∧
      (parseEpub filePath (some entries) now writeOk).metadata.language = "en".toList ∧
      (parseEpub filePath (some entries) now writeOk).metadata.publisher = []) := by
  constructor
  · intro pre opfEntry post opfContent hsplit hpre hopf hdata
    subst hsplit
    obtain ⟨h1, h2⟩ := parseEpub_of_descriptorStep filePath _ now writeOk _
      (descriptorStep_of_first filePath now pre opfEntry post opfContent hpre hopf hdata)
    refine ⟨h1, ?_, ?_, ?_, ?_⟩ <;> rw [h2]
  · intro hnone
    obtain ⟨h1, h2⟩ := parseEpub_of_descriptorStep filePath _ now writeOk _
      (descriptorStep_of_none filePath now entries hnone)
    refine ⟨h1, ?_, ?_, ?_, ?_, ?_⟩ <;> rw [h2] <;> rfl

theorem parseEpub_descriptor_first_candidate_witness :
    (parseEpub "/uploads/books/9-1700000000000-3-two.epub".toList (some twoOpfEntries) 0
      true).metadata.title =
      (applyDescriptor (initialMetadata "/uploads/books/9-1700000000000-3-two.epub".toList 0)
        "<dc:title>From package</dc:title>".toList).title :=
  ((parseEpub_descriptor_first_candidate "/uploads/books/9-1700000000000-3-two.epub".toList
      twoOpfEntries 0 true).1 []
    ⟨"OEBPS/package.opf".toList, some "<dc:title>From package</dc:title>".toList⟩
    [⟨"OEBPS/content.opf".toList, some "<dc:title>From content</dc:title>".toList⟩,
     ⟨"OEBPS/ch1.xhtml".toList, some "<p>one</p>".toList⟩]
    "<dc:title>From package</dc:title>".toList rfl (by simp)
    (Or.inl (by decide)) rfl).2.1

/-- Claim C11 as stated fails: in `twoOpfEntries` the entry `OEBPS/content.opf` holds the
token `content.opf`, but the entry `OEBPS/package.opf` precedes it in the listing and is
the one that `parseEpub` reads. -/
theorem parseEpub_descriptor_preference_counterexample :
    twoOpfEntries.find? isOpf =
      some ⟨"OEBPS/package.opf".toList, some "<dc:title>From package</dc:title>".toList⟩ ∧
    (parseEpub "/uploads/books/9-1700000000000-3-two.epub".toList (some twoOpfEntries) 0
      true).metadata.title = "From package".toList ∧
    (parseEpub "/uploads/books/9-1700000000000-3-two.epub".toList (some twoOpfEntries) 0
      true).metadata.title ≠ "From content".toList := by
  decide

/-- Claim C13, as amended: when the container cannot be opened, the error is thrown
inside the `try` block and `parseEpub` does not fail: it returns the recovery result,
with the title derived from the file name, the default author, language and publisher,
no cover and the single chapter `Chapter 1`. -/
theorem parseEpub_open_failure (filePath : Str) (now : Nat) (writeOk : Bool) :
    parseBody filePath none now writeOk = none ∧
    parseEpub filePath none now writeOk =
      { metadata :=
          { title := extractTitleFromFilename filePath
            author := "Unknown Author".toList
            description := "EPUB file uploaded. Metadata extraction was limited.".toList
            language := "en".toList
            publisher := []
            publishDate := now
            coverImage := none
            tableOfContents := [{ title := "Chapter 1".toList, href := [], chapter := 1 }]
            extractedText := "Content available when reading.".toList }
        totalChapters := 1 } :=
  ⟨rfl, rfl⟩

/-- Claim C13 as stated fails: for a file that cannot be opened as an archive,
`parseEpub` returns a metadata bundle, titled from the file name. -/
theorem parseEpub_open_failure_counterexample :
    parseEpub "/uploads/books/7-1700000000000-42-not_an_archive.epub".toList none 0 true =
      { metadata :=
          { title := "42 Not An Archive".toList
            author := "Unknown Author".toList
            description := "EPUB file uploaded. Metadata extraction was limited.".toList
            language := "en".toList
            publisher := []
            publishDate := 0
            coverImage := none
            tableOfContents := [{ title := "Chapter 1".toList, href := [], chapter := 1 }]
            extractedText := "Content available when reading.".toList }
        totalChapters := 1 } := by
  decide!

theorem navigationRows_of_unreadable (entries : List Entry) (navEntry : Entry)
    (rest : List Entry) (hnav : entries.filter isNav = navEntry :: rest)
    (hdata : navEntry.data = none) : navigationRows entries = [] := by
  simp only [navigationRows, hnav, hdata]

theorem coverImage_of_failure (filePath : Str) (entries : List Entry) (writeOk : Bool)
    (coverEntry : Entry) (rest : List Entry)
    (hcover : entries.filter isCoverImage = coverEntry :: rest)
    (hfail : coverEntry.data = none ∨ writeOk = false) :
    coverImage filePath entries writeOk = none := by
  simp only [coverImage, hcover]
  cases hdata : coverEntry.data with
  | none => rfl
  | some bytes =>
    rcases hfail with h | h
    · rw [hdata] at h; cases h
    · simp [h]

theorem coverImage_of_write_failure (filePath : Str) (entries : List Entry) :
    coverImage filePath entries false = none := by
  cases hcover : entries.filter isCoverImage with
  | nil => simp only [coverImage, hcover]
  | cons coverEntry rest =>
    cases hdata : coverEntry.data with
    | none => simp only [coverImage, hcover, hdata]
    | some bytes => simp [coverImage, hcover, hdata]

/-- Claim C14, as amended: when reading the descriptor throws, `parseEpub` returns the
recovery result (title from the file name, default author, language and publisher, no
cover, the single chapter `Chapter 1`, `totalChapters = 1`).  A failure of the
navigation step or of the cover step is caught where it occurs and the fields already
extracted are kept: when the first navigation entry cannot be read the table of
contents is the default chapters, and when the first cover candidate cannot be read or
the write fails the cover is `null`. -/
theorem parseEpub_read_failures (filePath : Str) (entries : List Entry) (now : Nat)
    (writeOk : Bool) :
    (∀ opfEntry, entries.find? isOpf = some opfEntry → opfEntry.data = none →
      parseEpub filePath (some entries) now writeOk = fallbackResult filePath now) ∧
    (∀ metadata, descriptorStep filePath entries now = some metadata →
      (∀ navEntry rest, entries.filter isNav = navEntry :: rest → navEntry.data = none →
        (parseEpub filePath (some entries) now writeOk).metadata.title = metadata.title ∧
        (parseEpub filePath (some entries) now writeOk).metadata.author = metadata.author ∧
        (parseEpub filePath (some entries) now writeOk).metadata.description =
          metadata.description ∧
        (parseEpub filePath (some entries) now writeOk).metadata.language =
          metadata.language ∧
        (parseEpub filePath (some entries) now writeOk).metadata.tableOfContents =
          defaultChapters entries ∧
        (parseEpub filePath (some entries) now writeOk).totalChapters =
          max 1 (entries.filter isHtml).length) ∧
      (∀ coverEntry rest, entries.filter isCoverImage = coverEntry :: rest →
        coverEntry.data = none ∨ writeOk = false →
        (parseEpub filePath (some entries) now writeOk).metadata.coverImage = none ∧
        (parseEpub filePath (some entries) now writeOk).metadata.title = metadata.title ∧
        (parseEpub filePath (some entries) now writeOk).metadata.author = metadata.author ∧
        (parseEpub filePath (some entries) now writeOk).metadata.description =
          metadata.description ∧
        (parseEpub filePath (some entries) now writeOk).metadata.language =
          metadata.language ∧
        (parseEpub filePath (some entries) now writeOk).metadata.tableOfContents =
          (if (navigationRows entries).length = 0 then defaultChapters entries
           else navigationRows entries))) := by
  constructor
  · intro opfEntry hfind hdata
    apply parseEpub_of_descriptorStep_none
    simp only [descriptorStep, hfind, hdata]
  · intro metadata hstep
    obtain ⟨-, h2⟩ := parseEpub_of_descriptorStep filePath entries now writeOk metadata hstep
    constructor
    · intro navEntry rest hnav hdata
      have hrows := navigationRows_of_unreadable entries navEntry rest hnav hdata
      rw [h2]
      simp only [hrows, List.length_nil, if_true, length_defaultChapters, and_self]
    · intro coverEntry rest hcover hfail
      have hnone := coverImage_of_failure filePath entries writeOk coverEntry rest hcover hfail
      rw [h2]
      simp only [hnone, and_self]

theorem parseEpub_read_failures_witness :
    parseEpub "/uploads/books/5-1700000000000-7-sample.epub".toList
      (some unreadableOpfEntries) 0 true =
      fallbackResult "/uploads/books/5-1700000000000-7-sample.epub".toList 0 :=
  (parseEpub_read_failures "/uploads/books/5-1700000000000-7-sample.epub".toList
    unreadableOpfEntries 0 true).1 ⟨"OEBPS/content.opf".toList, none⟩ (by decide) rfl

/-- Claim C14 as stated fails: with a navigation document that cannot be read
(`unreadableNavEntries`), and with a cover whose write fails (`coverEntries`), `parseEpub`
keeps the title and the author of the descriptor and counts three chapters, where the
full-fallback bundle has the title of the file name, the author `Unknown Author` and one
chapter. -/
theorem parseEpub_read_failures_counterexample :
    (unreadableNavEntries.filter isNav).map Entry.data = [none] ∧
    (parseEpub "/uploads/books/5-1700000000000-7-sample.epub".toList
      (some unreadableNavEntries) 0 true).metadata.title = "Sample".toList ∧
    (parseEpub "/uploads/books/5-1700000000000-7-sample.epub".toList
      (some unreadableNavEntries) 0 true).metadata.author = "Jane Doe".toList ∧
    (parseEpub "/uploads/books/5-1700000000000-7-sample.epub".toList
      (some unreadableNavEntries) 0 true).totalChapters = 3 ∧
    (parseEpub "/uploads/books/5-1700000000000-7-sample.epub".toList
      (some coverEntries) 0 false).metadata.title = "Sample".toList ∧
    (parseEpub "/uploads/books/5-1700000000000-7-sample.epub".toList
      (some coverEntries) 0 false).metadata.coverImage = none ∧
    (parseEpub "/uploads/books/5-1700000000000-7-sample.epub".toList
      (some coverEntries) 0 false).totalChapters = 3 ∧
    (fallbackResult "/uploads/books/5-1700000000000-7-sample.epub".toList 0).metadata.title =
      "7 Sample".toList ∧
    (fallbackResult "/uploads/books/5-1700000000000-7-sample.epub".toList 0).totalChapters =
      1 := by
  decide!

/-! ## The cover step -/

theorem isCoverImage_imp (entry : Entry) (h : isCoverImage entry = true) :
    IsImageName entry.entryName := by
  simp only [isCoverImage, Bool.and_eq_true, Bool.or_eq_true, endsWith_iff] at h
  exact h.2.elim (fun h1 => h1.elim Or.inl (fun h2 => Or.inr (Or.inl h2)))
    (fun h3 => Or.inr (Or.inr h3))

theorem filter_isCoverImage_eq_nil (entries : List Entry)
    (h : ∀ e ∈ entries, ¬ IsImageName e.entryName) : entries.filter isCoverImage = [] := by
  rw [List.filter_eq_nil_iff]
  intro e he hcover
  exact h e he (isCoverImage_imp e hcover)

/-- When the cover step leaves the cover `null`, `parseEpub` returns what it returns
without the cover step. -/
theorem parseEpub_eq_withoutCover (filePath : Str) (entries : List Entry) (now : Nat)
    (writeOk : Bool) (h : coverImage filePath entries writeOk = none) :
    parseEpub filePath (some entries) now writeOk =
      parseEpubWithoutCover filePath (some entries) now := by
  have hb := parseBody_eq filePath entries now writeOk
  cases hstep : descriptorStep filePath entries now with
  | none =>
    rw [hstep] at hb
    simp only [parseEpub, hb, parseEpubWithoutCover, parseBodyWithoutCover, hstep]
  | some metadata =>
    rw [hstep] at hb
    simp only [parseEpub, hb, parseEpubWithoutCover, parseBodyWithoutCover, hstep, h]

/-- Claim C16: the cover step is optional and not fatal.  For a container that opens
and has no entry whose name ends in `.jpg`, `.jpeg` or `.png`, `parseEpub` returns a
result with the cover `null`, does not reach the cover write, and returns what it
returns without the cover step; and when the cover write fails, the cover is `null` and
the result is again the one without the cover step. -/
theorem parseEpub_cover_optional (filePath : Str) (entries : List Entry) (now : Nat)
    (writeOk : Bool) :
    ((∀ e ∈ entries, ¬ IsImageName e.entryName) →
      (parseEpub filePath (some entries) now writeOk).metadata.coverImage = none ∧
      attemptsCoverWrite (some entries) = false ∧
      parseEpub filePath (some entries) now writeOk =
        parseEpubWithoutCover filePath (some entries) now) ∧
    ((parseEpub filePath (some entries) now false).metadata.coverImage = none ∧
      parseEpub filePath (some entries) now false =
        parseEpubWithoutCover filePath (some entries) now) := by
  have hskip : ∀ w, coverImage filePath entries w = none →
      (parseEpub filePath (some entries) now w).metadata.coverImage = none := by
    intro w hw
    cases hstep : descriptorStep filePath entries now with
    | none => rw [parseEpub_of_descriptorStep_none filePath entries now w hstep]; rfl
    | some metadata =>
      rw [(parseEpub_of_descriptorStep filePath entries now w metadata hstep).2, hw]
  constructor
  · intro himg
    have hnil := filter_isCoverImage_eq_nil entries himg
    have hcov : coverImage filePath entries writeOk = none := by
      simp only [coverImage, hnil]
    refine ⟨hskip writeOk hcov, ?_, parseEpub_eq_withoutCover filePath entries now writeOk hcov⟩
    simp only [attemptsCoverWrite, hnil, Bool.and_false]
  · exact ⟨hskip false (coverImage_of_write_failure filePath entries),
      parseEpub_eq_withoutCover filePath entries now false
        (coverImage_of_write_failure filePath entries)⟩

theorem parseEpub_cover_optional_witness :
    (parseEpub "/uploads/books/5-1700000000000-7-sample.epub".toList
      (some scenarioEntries) 0 true).metadata.coverImage = none ∧
    attemptsCoverWrite (some scenarioEntries) = false ∧
    parseEpub "/uploads/books/5-1700000000000-7-sample.epub".toList
      (some scenarioEntries) 0 true =
      parseEpubWithoutCover "/uploads/books/5-1700000000000-7-sample.epub".toList
        (some scenarioEntries) 0 :=
  (parseEpub_cover_optional "/uploads/books/5-1700000000000-7-sample.epub".toList
    scenarioEntries 0 true).1 (by
      intro e he himg
      have h1 : (endsWith e.entryName ".jpg".toList || endsWith e.entryName ".jpeg".toList ||
          endsWith e.entryName ".png".toList) = true := by
        simp only [Bool.or_eq_true, endsWith_iff]
        rcases himg with h | h | h
        · exact Or.inl (Or.inl h)
        · exact Or.inl (Or.inr h)
        · exact Or.inr h
      clear himg
      revert e
      decide)

/-! ## Evaluations of the navigation step, the cover step and the title -/

/-- Claim C12, evaluated where the code departs from it: the navigation pattern has no
`s` flag, so its `.*?` does not cross a line break.  On `multiLineNcx`, where each of
the two labels and its text are on different lines, the pattern has no match and the
table of contents is the three default chapters; on the same document without line
breaks it is the two labelled rows. -/
theorem parseEpub_multi_line_navigation :
    matchAll navRe multiLineNcx = none ∧
    navigationRows (ncxContainer multiLineNcx) = [] ∧
    (parseEpub "/uploads/books/5-1700000000000-7-sample.epub".toList
      (some (ncxContainer multiLineNcx)) 0 true).metadata.tableOfContents =
      [{ title := "Chapter 1".toList, href := [], chapter := 1 },
       { title := "Chapter 2".toList, href := [], chapter := 2 },
       { title := "Chapter 3".toList, href := [], chapter := 3 }] ∧
    (parseEpub "/uploads/books/5-1700000000000-7-sample.epub".toList
      (some (ncxContainer oneLineNcx)) 0 true).metadata.tableOfContents =
      [{ title := "Opening".toList, href := [], chapter := 1 },
       { title := "Ending".toList, href := [], chapter := 2 }] := by
  decide!

/-- Claim C15, evaluated where the code departs from it: the cover filter tests the two
spellings `cover` and `Cover` only.  For the image entry `OEBPS/images/COVER.jpg` no
cover is chosen, where for `OEBPS/images/cover.jpg` the cover reference is made from the
container name. -/
theorem parseEpub_upper_case_cover :
    isCoverImage ⟨"OEBPS/images/COVER.jpg".toList, some "JFIF".toList⟩ = false ∧
    (parseEpub "/uploads/books/5-1700000000000-7-sample.epub".toList
      (some upperCoverEntries) 0 true).metadata.coverImage = none ∧
    (parseEpub "/uploads/books/5-1700000000000-7-sample.epub".toList
      (some coverEntries) 0 true).metadata.coverImage =
      some "/uploads/covers/5-1700000000000-7-sample-cover.jpg".toList := by
  decide!

/-- Claim C19, evaluated where the code departs from it: the pattern of
`extractTitleFromFilename` removes two leading groups of digits.  A stored name starts
with the user id, the time stamp and the random integer: with an id in hexadecimal
nothing is removed, and with an id in digits the random integer stays in the title. -/
theorem extractTitleFromFilename_stored_path :
    storedPath "/app/backend/uploads/books".toList "64b7f3e2a1c9d8e7f6a5b4c3".toList
      1700000000000 123456789 "my_book.epub".toList =
      "/app/backend/uploads/books/64b7f3e2a1c9d8e7f6a5b4c3-1700000000000-123456789-my_book.epub".toList ∧
    extractTitleFromFilename
      (storedPath "/app/backend/uploads/books".toList "64b7f3e2a1c9d8e7f6a5b4c3".toList
        1700000000000 123456789 "my_book.epub".toList) =
      "64b7f3e2a1c9d8e7f6a5b4c3 1700000000000 123456789 My Book".toList ∧
    extractTitleFromFilename
      (storedPath "/app/backend/uploads/books".toList "42".toList
        1700000000000 123456789 "my_book.epub".toList) =
      "123456789 My Book".toList ∧
    extractTitleFromFilename "my_book.epub".toList = "My Book".toList := by
  decide!

/-! ## The title derived from the file name -/

/-- A greedy repetition whose continuation fails on every text that starts in the class
takes the longest run of the class. -/
theorem greedy_eq_of_disjoint (p : Char → Bool) (k : Str → Option (Str × Str))
    (hk : ∀ c cs, p c = true → k (c :: cs) = none) (s : Str) :
    greedy p k s =
      match k (s.dropWhile p) with
      | some (m, g) => some (s.takeWhile p ++ m, g)
      | none => none := by
  induction s with
  | nil =>
    simp only [greedy, List.dropWhile_nil, List.takeWhile_nil, List.nil_append]
    cases k [] with
    | none => rfl
    | some mg => rfl
  | cons c cs ih =>
    by_cases hp : p c = true
    · simp only [greedy, hp, if_true, List.dropWhile_cons_of_pos, List.takeWhile_cons_of_pos,
        ih]
      cases hrest : k (cs.dropWhile p) with
      | none => simp only [hk c cs hp]
      | some mg => rfl
    · have hp2 : p c = false := by simpa using hp
      simp only [greedy, hp2, Bool.false_eq_true, if_false, List.dropWhile_cons_of_neg hp,
        List.takeWhile_cons_of_neg hp, List.nil_append]
      cases k (c :: cs) with
      | none => rfl
      | some mg => rfl

theorem matchAtoms_plus (ci : Bool) (p : Char → Bool) (rest : List Atom) (s : Str) :
    matchAtoms ci (Atom.plus p :: rest) s =
      match s with
      | [] => none
      | c :: cs =>
        if p c then
          match greedy p (matchAtoms ci rest) cs with
          | some (m, g) => some (c :: m, g)
          | none => none
        else none := by
  cases s with
  | nil => rw [matchAtoms]
  | cons c cs => rw [matchAtoms]

/-- A greedy `+` of a class whose continuation fails on every text that starts in the
class takes the longest run of the class, which must not be empty. -/
theorem matchAtoms_plus_of_disjoint (ci : Bool) (p : Char → Bool) (rest : List Atom)
    (hk : ∀ c cs, p c = true → matchAtoms ci rest (c :: cs) = none) (s : Str) :
    matchAtoms ci (Atom.plus p :: rest) s =
      if s.takeWhile p = [] then none
      else
        match matchAtoms ci rest (s.dropWhile p) with
        | some (m, g) => some (s.takeWhile p ++ m, g)
        | none => none := by
  rw [matchAtoms_plus]
  cases s with
  | nil => rfl
  | cons c cs =>
    by_cases hp : p c = true
    · simp only [hp, if_true, List.takeWhile_cons_of_pos, List.dropWhile_cons_of_pos,
        greedy_eq_of_disjoint p _ hk cs, reduceCtorEq, if_false]
      cases matchAtoms ci rest (cs.dropWhile p) with
      | none => rfl
      | some mg => rfl
    · have hp2 : p c = false := by simpa using hp
      simp only [hp2, Bool.false_eq_true, if_false, List.takeWhile_cons_of_neg hp, if_true]

theorem chEq_false_hyphen (c : Char) : chEq false '-' c = true ↔ c = '-' := by
  simp only [chEq, Bool.false_eq_true, if_false, beq_iff_eq]
  exact eq_comm

/-- A hyphen of a pattern without the `i` flag takes a leading hyphen. -/
theorem matchAtoms_hyphen (rest : List Atom) (s : Str) :
    matchAtoms false (Atom.lit ['-'] :: rest) s =
      match dropHyphen s with
      | some r =>
        match matchAtoms false rest r with
        | some (m, g) => some ('-' :: m, g)
        | none => none
      | none => none := by
  rw [matchAtoms_lit]
  cases s with
  | nil => rfl
  | cons c cs =>
    by_cases hc : c = '-'
    · subst hc
      simp only [matchLit, chEq, Bool.false_eq_true, if_false, beq_self_eq_true, if_true,
        dropHyphen]
      cases matchAtoms false rest cs with
      | none => rfl
      | some mg => rfl
    · have h1 : chEq false '-' c = false := by
        cases h : chEq false '-' c with
        | false => rfl
        | true => exact absurd ((chEq_false_hyphen c).1 h) hc
      simp only [matchLit, h1, Bool.false_eq_true, if_false, dropHyphen, hc]

theorem isDigit_ne_hyphen (c : Char) (h : isDigit c = true) : c ≠ '-' := by
  intro hc
  subst hc
  revert h
  decide

theorem matchAtoms_hyphen_of_digit (rest : List Atom) (c : Char) (cs : Str)
    (h : isDigit c = true) : matchAtoms false (Atom.lit ['-'] :: rest) (c :: cs) = none := by
  rw [matchAtoms_hyphen]
  simp only [dropHyphen, isDigit_ne_hyphen c h, if_false]

/-- The removal of the leading match of the pattern `^\d+-\d+-` is the removal of one
leading prefix of the form digits, hyphen, digits, hyphen. -/
theorem stripIdPrefix_eq (s : Str) : stripIdPrefix s = stripNumericPrefix s := by
  have hsplit : ∀ t : Str, t.takeWhile isDigit ++ t.dropWhile isDigit = t :=
    fun t => List.takeWhile_append_dropWhile isDigit t
  have hdrop : ∀ t r : Str, dropHyphen t = some r → t = '-' :: r := by
    intro t r h
    cases t with
    | nil => simp [dropHyphen] at h
    | cons c cs =>
      by_cases hc : c = '-'
      · simp only [dropHyphen, hc, if_true, Option.some.injEq] at h
        rw [hc, h]
      · simp [dropHyphen, hc] at h
  unfold stripIdPrefix stripNumericPrefix matchAt prefixRe
  simp only
  rw [matchAtoms_plus_of_disjoint false isDigit _
    (fun c cs h => matchAtoms_hyphen_of_digit _ c cs h) s, matchAtoms_hyphen]
  cases h1 : dropHyphen (s.dropWhile isDigit) with
  | none =>
    by_cases hd1 : s.takeWhile isDigit = []
    · simp only [hd1, if_true]
    · simp only [hd1, if_false]
  | some afterFirst =>
    simp only
    rw [matchAtoms_plus_of_disjoint false isDigit _
      (fun c cs h => matchAtoms_hyphen_of_digit _ c cs h) afterFirst, matchAtoms_hyphen]
    cases h2 : dropHyphen (afterFirst.dropWhile isDigit) with
    | none =>
      by_cases hd1 : s.takeWhile isDigit = []
      · simp only [hd1, if_true]
      · by_cases hd2 : afterFirst.takeWhile isDigit = []
        · simp only [hd1, hd2, if_true, if_false]
        · simp only [hd1, hd2, if_false]
    | some afterSecond =>
      by_cases hd1 : s.takeWhile isDigit = []
      · simp only [hd1, if_true, true_or]
      · by_cases hd2 : afterFirst.takeWhile isDigit = []
        · simp only [hd1, hd2, if_true, if_false, or_true]
        · simp only [hd1, hd2, if_false, matchAtoms_nil, or_self]
          have e1 := hdrop _ _ h1
          have e2 := hdrop _ _ h2
          have hs : s = (s.takeWhile isDigit ++ '-' :: (afterFirst.takeWhile isDigit ++
              ['-'])) ++ afterSecond := by
            conv_lhs => rw [← hsplit s, e1, ← hsplit afterFirst, e2]
            simp
          have key : List.drop (s.takeWhile isDigit ++ '-' :: (afterFirst.takeWhile isDigit ++
              ['-'])).length ((s.takeWhile isDigit ++ '-' :: (afterFirst.takeWhile isDigit ++
              ['-'])) ++ afterSecond) = afterSecond := by
            simp
          rw [← hs] at key
          exact key

theorem replaceSeparators_eq (s : Str) : replaceSeparators s = separatorsToSpaces s := by
  unfold replaceSeparators separatorsToSpaces
  apply List.map_congr_left
  intro c _
  by_cases h1 : c = '-'
  · simp [h1]
  · by_cases h2 : c = '_'
    · simp [h2]
    · simp [h1, h2]

/-- The title derived from a file name is never empty. -/
theorem extractTitleFromFilename_ne_nil (filePath : Str) :
    extractTitleFromFilename filePath ≠ [] := by
  unfold extractTitleFromFilename
  simp only
  split
  · decide
  · assumption

/-- Claim C17, evaluated where the code departs from it: in `naïve café.epub` the letters
`ï` and `é` are not word characters of the pattern `\b\w`, so the `v` after `ï` starts a
word of the pattern and is put in upper case; the first letter of each of the two words
is `n` and `c`.  The same name without the accents gives `Naive Cafe`. -/
theorem extractTitleFromFilename_non_ascii_letter :
    extractTitleFromFilename "na\u00efve caf\u00e9.epub".toList =
      "Na\u00efVe Caf\u00e9".toList ∧
    extractTitleFromFilename "naive cafe.epub".toList = "Naive Cafe".toList := by
  decide!

/-! ## Chapters in range -/

/-- An index in range selects a markup entry of the container. -/
theorem entryAt_of_in_range (cmp : Str → Str → Int) (entries : List Entry)
    (chapterIndex : Int) (h0 : 0 ≤ chapterIndex)
    (hlt : chapterIndex < ((entries.filter isHtml).length : Int)) :
    ∃ entry, entryAt (htmlEntries cmp entries) chapterIndex = some entry ∧
      entry ∈ entries ∧ isHtml entry = true := by
  have hlen : chapterIndex.toNat < (htmlEntries cmp entries).length := by
    rw [length_htmlEntries]; omega
  refine ⟨(htmlEntries cmp entries).get ⟨chapterIndex.toNat, hlen⟩, ?_, ?_⟩
  · simp only [entryAt, h0, if_true]
    exact List.get?_eq_get hlen
  · have hmem : (htmlEntries cmp entries).get ⟨chapterIndex.toNat, hlen⟩ ∈
        entries.filter isHtml :=
      (htmlEntries_perm cmp entries).subset (List.get_mem _ _ _)
    exact List.mem_filter.1 hmem

/-- An index out of range selects no entry. -/
theorem entryAt_of_out_of_range (cmp : Str → Str → Int) (entries : List Entry)
    (chapterIndex : Int)
    (h : chapterIndex < 0 ∨ ((entries.filter isHtml).length : Int) ≤ chapterIndex) :
    entryAt (htmlEntries cmp entries) chapterIndex = none := by
  unfold entryAt
  split
  · rw [List.get?_eq_none, length_htmlEntries]
    omega
  · rfl

/-- The result of `getChapterContent` when an entry is selected and can be read. -/
theorem getChapterContent_of_entry (cmp : Str → Str → Int) (entries : List Entry)
    (chapterIndex : Int) (entry : Entry) (text : Str)
    (hat : entryAt (htmlEntries cmp entries) chapterIndex = some entry)
    (hdata : entry.data = some text) :
    getChapterContent cmp (some entries) chapterIndex =
      { title := "Chapter ".toList ++ numToStr (chapterIndex + 1)
        content :=
          if sanitize text = [] then "<p>Chapter content could not be loaded.</p>".toList
          else sanitize text
        chapterIndex := chapterIndex } := by
  simp only [getChapterContent, chapterBody, hat, hdata, chapterTitle]

/-- The result of `getChapterContent` when the selected entry cannot be read. -/
theorem getChapterContent_of_unreadable (cmp : Str → Str → Int) (entries : List Entry)
    (chapterIndex : Int) (entry : Entry)
    (hat : entryAt (htmlEntries cmp entries) chapterIndex = some entry)
    (hdata : entry.data = none) :
    getChapterContent cmp (some entries) chapterIndex =
      { title := "Chapter ".toList ++ numToStr (chapterIndex + 1)
        content := "<p>Error loading chapter content.</p>".toList
        chapterIndex := chapterIndex } := by
  simp only [getChapterContent, chapterBody, hat, hdata, chapterTitle]

/-- Claim C18, as amended: for a container that opens and a chapter index in range, the
content returned by `getChapterContent` is never the empty string; an entry is selected;
when its text can be read the content is the clean-up of the text when that is not empty
and the placeholder paragraph when it is; when it cannot be read the content is the
error paragraph. -/
theorem getChapterContent_content_ne_nil (cmp : Str → Str → Int) (entries : List Entry)
    (chapterIndex : Int) (h0 : 0 ≤ chapterIndex)
    (hlt : chapterIndex < ((entries.filter isHtml).length : Int)) :
    (getChapterContent cmp (some entries) chapterIndex).content ≠ [] ∧
    ∃ entry, entryAt (htmlEntries cmp entries) chapterIndex = some entry ∧
      (∀ text, entry.data = some text →
        (sanitize text ≠ [] →
          (getChapterContent cmp (some entries) chapterIndex).content = sanitize text) ∧
        (sanitize text = [] →
          (getChapterContent cmp (some entries) chapterIndex).content =
            "<p>Chapter content could not be loaded.</p>".toList)) ∧
      (entry.data = none →
        (getChapterContent cmp (some entries) chapterIndex).content =
          "<p>Error loading chapter content.</p>".toList) := by
  obtain ⟨entry, hat, -, -⟩ := entryAt_of_in_range cmp entries chapterIndex h0 hlt
  constructor
  · cases hdata : entry.data with
    | none =>
      rw [getChapterContent_of_unreadable cmp entries chapterIndex entry hat hdata]
      simp only
      decide
    | some text =>
      rw [getChapterContent_of_entry cmp entries chapterIndex entry text hat hdata]
      simp only
      split
      · decide
      · assumption
  · refine ⟨entry, hat, ?_, ?_⟩
    · intro text hdata
      rw [getChapterContent_of_entry cmp entries chapterIndex entry text hat hdata]
      constructor
      · intro hne
        simp only [hne, if_false]
      · intro he
        simp only [he, if_true]
    · intro hdata
      rw [getChapterContent_of_unreadable cmp entries chapterIndex entry hat hdata]

theorem getChapterContent_content_ne_nil_witness :
    (getChapterContent localeCompareModel (some headOnlyEntries) 0).content ≠ [] ∧
    ∃ entry, entryAt (htmlEntries localeCompareModel headOnlyEntries) 0 = some entry ∧
      (∀ text, entry.data = some text →
        (sanitize text ≠ [] →
          (getChapterContent localeCompareModel (some headOnlyEntries) 0).content =
            sanitize text) ∧
        (sanitize text = [] →
          (getChapterContent localeCompareModel (some headOnlyEntries) 0).content =
            "<p>Chapter content could not be loaded.</p>".toList)) ∧
      (entry.data = none →
        (getChapterContent localeCompareModel (some headOnlyEntries) 0).content =
          "<p>Error loading chapter content.</p>".toList) :=
  getChapterContent_content_ne_nil localeCompareModel headOnlyEntries 0 (by decide)
    (by decide)

/-- Claim C18 as stated fails: the only markup entry of `unreadableChapterEntries` is
selected by index 0, which is in range, and cannot be read, so there is no markup to
clean up; the content returned is the error paragraph, not the placeholder paragraph. -/
theorem getChapterContent_content_counterexample :
    (0 : Int) < ((unreadableChapterEntries.filter isHtml).length : Int) ∧
    entryAt (htmlEntries localeCompareModel unreadableChapterEntries) 0 =
      some ⟨"OEBPS/ch1.xhtml".toList, none⟩ ∧
    (getChapterContent localeCompareModel (some unreadableChapterEntries) 0).content =
      "<p>Error loading chapter content.</p>".toList ∧
    (getChapterContent localeCompareModel (some unreadableChapterEntries) 0).content ≠
      "<p>Chapter content could not be loaded.</p>".toList := by
  decide

/-- When the descriptor, if there is one, can be read, the descriptor step does not
throw. -/
theorem descriptorStep_ne_none (filePath : Str) (entries : List Entry) (now : Nat)
    (hdesc : ∀ opfEntry, entries.find? isOpf = some opfEntry → opfEntry.data ≠ none) :
    ∃ metadata, descriptorStep filePath entries now = some metadata := by
  cases hfind : entries.find? isOpf with
  | none => exact ⟨initialMetadata filePath now, by simp only [descriptorStep, hfind]⟩
  | some opfEntry =>
    cases hdata : opfEntry.data with
    | none => exact absurd hdata (hdesc opfEntry hfind)
    | some opfContent =>
      exact ⟨applyDescriptor (initialMetadata filePath now) opfContent,
        by simp only [descriptorStep, hfind, hdata]⟩

/-- Claim C20, as amended: for a container that opens, whose descriptor entry, if there
is one, is readable, for which the navigation step yields no row and which has `n ≥ 1`
markup entries, `parseEpub` reports `totalChapters = n`; for every index below
`totalChapters`, `getChapterContent` on the same entries selects a markup entry of the
container, and when that entry can be read the content is made from its text; at the
index `totalChapters` it returns the not-found record. -/
theorem chapter_range_agreement (cmp : Str → Str → Int) (filePath : Str)
    (entries : List Entry) (now : Nat) (writeOk : Bool) (n : Nat)
    (hdesc : ∀ opfEntry, entries.find? isOpf = some opfEntry → opfEntry.data ≠ none)
    (hnav : navigationRows entries = [])
    (hn : (entries.filter isHtml).length = n) (hpos : 1 ≤ n) :
    (parseEpub filePath (some entries) now writeOk).totalChapters = n ∧
    (∀ i : Nat, i < (parseEpub filePath (some entries) now writeOk).totalChapters →
      ∃ entry, entry ∈ entries ∧ isHtml entry = true ∧
        entryAt (htmlEntries cmp entries) (i : Int) = some entry ∧
        ∀ text, entry.data = some text →
          (getChapterContent cmp (some entries) (i : Int)).content =
            if sanitize text = [] then "<p>Chapter content could not be loaded.</p>".toList
            else sanitize text) ∧
    getChapterContent cmp (some entries)
      ((parseEpub filePath (some entries) now writeOk).totalChapters : Int) =
      { title := "Chapter ".toList ++
          numToStr (((parseEpub filePath (some entries) now writeOk).totalChapters : Int) + 1)
        content := "<p>Chapter not found.</p>".toList
        chapterIndex := ((parseEpub filePath (some entries) now writeOk).totalChapters : Int) } := by
  obtain ⟨metadata, hstep⟩ := descriptorStep_ne_none filePath entries now hdesc
  have htotal : (parseEpub filePath (some entries) now writeOk).totalChapters = n := by
    rw [(parseEpub_of_descriptorStep filePath entries now writeOk metadata hstep).2]
    simp only [hnav, List.length_nil, if_true, length_defaultChapters, hn]
    exact max_eq_right hpos
  rw [htotal]
  refine ⟨rfl, ?_, ?_⟩
  · intro i hi
    obtain ⟨entry, hat, hmem, hhtml⟩ := entryAt_of_in_range cmp entries (i : Int)
      (by omega) (by rw [hn]; omega)
    refine ⟨entry, hmem, hhtml, hat, ?_⟩
    intro text hdata
    rw [getChapterContent_of_entry cmp entries (i : Int) entry text hat hdata]
  · have hnone := entryAt_of_out_of_range cmp entries (n : Int) (Or.inr (by rw [hn]))
    simp only [getChapterContent, chapterBody, hnone, chapterTitle]

theorem chapter_range_agreement_witness :
    (parseEpub "/uploads/books/5-1700000000000-7-sample.epub".toList
      (some scenarioEntries) 0 true).totalChapters = 3 ∧
    (∀ i : Nat, i < (parseEpub "/uploads/books/5-1700000000000-7-sample.epub".toList
        (some scenarioEntries) 0 true).totalChapters →
      ∃ entry, entry ∈ scenarioEntries ∧ isHtml entry = true ∧
        entryAt (htmlEntries codePointCompare scenarioEntries) (i : Int) = some entry ∧
        ∀ text, entry.data = some text →
          (getChapterContent codePointCompare (some scenarioEntries) (i : Int)).content =
            if sanitize text = [] then "<p>Chapter content could not be loaded.</p>".toList
            else sanitize text) ∧
    getChapterContent codePointCompare (some scenarioEntries)
      ((parseEpub "/uploads/books/5-1700000000000-7-sample.epub".toList
        (some scenarioEntries) 0 true).totalChapters : Int) =
      { title := "Chapter ".toList ++
          numToStr (((parseEpub "/uploads/books/5-1700000000000-7-sample.epub".toList
            (some scenarioEntries) 0 true).totalChapters : Int) + 1)
        content := "<p>Chapter not found.</p>".toList
        chapterIndex := ((parseEpub "/uploads/books/5-1700000000000-7-sample.epub".toList
          (some scenarioEntries) 0 true).totalChapters : Int) } :=
  chapter_range_agreement codePointCompare "/uploads/books/5-1700000000000-7-sample.epub".toList
    scenarioEntries 0 true 3 (by decide) (by decide) (by decide) (by decide)

/-- Claim C20 as stated fails.  In `unreadableOpfEntries` there are two markup entries and
no navigation entry, but reading the descriptor throws: `parseEpub` reports one chapter,
and `getChapterContent` at index 1 returns the second chapter, not the not-found
placeholder.  In `notFoundTextEntries` the only chapter is selected at index 0 and its
content is the text of the not-found paragraph. -/
theorem chapter_range_agreement_counterexample :
    navigationRows unreadableOpfEntries = [] ∧
    (unreadableOpfEntries.filter isHtml).length = 2 ∧
    (parseEpub "/uploads/books/5-1700000000000-7-sample.epub".toList
      (some unreadableOpfEntries) 0 true).totalChapters = 1 ∧
    (getChapterContent codePointCompare (some unreadableOpfEntries) 1).content =
      "<p>two</p>".toList ∧
    navigationRows notFoundTextEntries = [] ∧
    (parseEpub "/uploads/books/5-1700000000000-7-sample.epub".toList
      (some notFoundTextEntries) 0 true).totalChapters = 1 ∧
    (getChapterContent codePointCompare (some notFoundTextEntries) 0).content =
      "<p>Chapter not found.</p>".toList := by
  decide!

/-! ## Empty titles and authors -/

/-- Claim C21, evaluated where the code departs from it: the title and the author read
from the descriptor are trimmed and stored without the test for emptiness that
`extractTitleFromFilename` makes.  For the descriptor of `blankTitleEntries`, whose
title and creator elements hold white space only, both fields of the result are the
empty string; without a descriptor they are the title of the file name and
`Unknown Author`. -/
theorem parseEpub_blank_title_and_author :
    matchFirst (tagRe "dc:title".toList)
      "<metadata><dc:title>   </dc:title><dc:creator>\n\t</dc:creator></metadata>".toList =
      some ("<dc:title>   </dc:title>".toList, "   ".toList) ∧
    (parseEpub "/uploads/books/5-1700000000000-7-sample.epub".toList
      (some blankTitleEntries) 0 true).metadata.title = [] ∧
    (parseEpub "/uploads/books/5-1700000000000-7-sample.epub".toList
      (some blankTitleEntries) 0 true).metadata.author = [] ∧
    (parseEpub "/uploads/books/5-1700000000000-7-sample.epub".toList
      (some [⟨"OEBPS/ch1.xhtml".toList, some "<p>one</p>".toList⟩]) 0 true).metadata.title =
      "7 Sample".toList ∧
    (parseEpub "/uploads/books/5-1700000000000-7-sample.epub".toList
      (some [⟨"OEBPS/ch1.xhtml".toList, some "<p>one</p>".toList⟩]) 0 true).metadata.author =
      "Unknown Author".toList := by
  decide!

end EPubService
